import Mathlib

/-!
A verification model of the `css_tools` package.

This file embeds the CSS-manipulation layer of the repository
(`css_tools/parser.py`, `extractor.py`, `minifier.py`, `modifier.py`)
as executable Lean definitions and proves properties of the embedded
functions.

The repository delegates tokenisation and structural parsing to an
external collaborator (the `tinycss2` library), which is not part of the
repository's sources.  Its two capabilities, `parse(text) -> Stylesheet`
and `serialize(items) -> text`, are therefore modelled here from the
specification: `parseGo` below parses CSS text into the item sequence of
the spec's data model (qualified rules, at-rules with optional blocks,
comments, whitespace, parse-error markers), and the `serialize*`
functions reproduce the source text of unmodified items, closing any
block left unclosed at end of input, as the collaborator's serializer
does.  The model scans at character level and does not treat string
literals or comment bodies specially inside preludes and blocks; this
simplification of low-level tokenisation (explicitly out of scope for
the repository) is the only place the model is coarser than the
collaborator.

All functions of the repository itself (`minify_css`,
`remove_duplicates`, `extract_colors`, `extract_media_queries`,
`extract_animations`, `extract_fonts`, `extract_unused_selectors`,
`analyze_stylesheet`, `add_property_to_selector`,
`add_prefix_to_property`) are translated statement by statement from the
Python sources.
-/

namespace CssTools

/-- Whitespace as Python's `str.strip` / `\s` see it (ASCII subset). -/
def isPyWs (c : Char) : Bool :=
  c = ' ' || c = '\t' || c = '\n' || c = '\r' || c = '\x0b' || c = '\x0c'

/-- Python `str.lstrip()` on a character list. -/
def pyTrimLeft (cs : List Char) : List Char := cs.dropWhile isPyWs

/-- Python `str.rstrip()` on a character list. -/
def pyTrimRight (cs : List Char) : List Char :=
  (cs.reverse.dropWhile isPyWs).reverse

/-- Python `str.strip()` on a character list. -/
def pyTrim (cs : List Char) : List Char := pyTrimRight (pyTrimLeft cs)

/-- Python `str.lower()` (ASCII) on a character list. -/
def lowerChars (cs : List Char) : List Char := cs.map Char.toLower

/-- Characters accepted in an at-keyword by the model
(letters, digits, hyphen, underscore). -/
def identChar (c : Char) : Bool :=
  c.isAlpha || c.isDigit || c = '-' || c = '_'

/-- Opening bracket characters. -/
def isOpener (c : Char) : Bool := c = '(' || c = '[' || c = '{'

/-- Closing bracket characters. -/
def isCloser (c : Char) : Bool := c = ')' || c = ']' || c = '}'

/-- The closing bracket matching an opener. -/
def closerFor (c : Char) : Char :=
  if c = '(' then ')' else if c = '[' then ']' else '}'

/-- Pop discipline of the collaborator's simple-block consumption: an
opener pushes its closer, the matching closer pops, any other closer is
consumed as a plain token. -/
def pushPop (st : List Char) (c : Char) : List Char :=
  if isOpener c then closerFor c :: st
  else if isCloser c then
    match st with
    | d :: rest => if d = c then rest else st
    | [] => st
  else st

/-- Raw span of a comment body including the closing `*/` when present,
the rest, and whether the comment was terminated (the collaborator's
tokeniser consumes comments atomically, to end of input when
unterminated). -/
def commentSpan : List Char → (List Char × List Char × Bool)
  | [] => ([], [], false)
  | '*' :: '/' :: rest => (['*', '/'], rest, true)
  | c :: rest =>
    let p := commentSpan rest
    (c :: p.1, p.2.1, p.2.2)

/-- Pending-closer stack after scanning `cs` (innermost first), and
whether scanning ended inside an unterminated comment; brackets inside
comments do not count, as the collaborator tokenises comments
atomically.  Fuel decreases per step; `length + 1` always suffices. -/
def closeScan : Nat → List Char → List Char → (List Char × Bool)
  | 0, st, _ => (st, false)
  | _, st, [] => (st, false)
  | fuel + 1, st, c :: rest =>
    if c = '/' && rest.headD ' ' = '*' then
      match commentSpan (rest.drop 1) with
      | (_, r, true) => closeScan fuel st r
      | (_, _, false) => (st, true)
    else closeScan fuel (pushPop st c) rest

/-- Modelled from the spec: the collaborator's serializer closes an
unterminated trailing comment and every block still open at end of
input, so re-serialising a token span appends `*/` (when needed) and
the pending closers. -/
def closeBlocks (cs : List Char) : List Char :=
  let (st, uc) := closeScan (cs.length + 1) [] cs
  cs ++ (if uc then ['*', '/'] else []) ++ st

/-- One item of a stylesheet, mirroring the node kinds the repository
dispatches on (`qualified-rule`, `at-rule`, `comment`, `whitespace`,
`error`).  Raw character spans are stored exactly as they appear in the
source text; `atRule` keeps the keyword's original spelling. -/
inductive CNode where
  | qrule (preludeRaw contentRaw : List Char)
  | atRule (keyword preludeRaw : List Char) (block : Option (List Char))
  | comment (text : List Char)
  | wsp (text : List Char)
  | errNode
  deriving Repr, DecidableEq

/-- One item of a declaration list (`declaration`, `comment`,
`whitespace`, `error`).  A declaration stores its raw value span (the
serialized value) and the `!important` flag, which the parser has
already stripped from the value. -/
inductive DItem where
  | decl (name value : List Char) (important : Bool)
  | comment (text : List Char)
  | wsp (text : List Char)
  | errItem
  deriving Repr, DecidableEq

/-- Text of a comment: characters up to `*/` (or end of input), and the
rest after the terminator. -/
def scanComment : List Char → (List Char × List Char)
  | [] => ([], [])
  | '*' :: '/' :: rest => ([], rest)
  | c :: rest =>
    let (txt, r) := scanComment rest
    (c :: txt, r)

/-- Component-value scan: consume characters up to (excluding) the
first character from `stops` reached with an empty pending-closer
stack; comments are consumed atomically and brackets follow the
collaborator's simple-block matching (`pushPop`).  Fuel decreases per
step; `length + 1` always suffices. -/
def scanTok (stops : List Char) : Nat → List Char → List Char →
    (List Char × List Char)
  | 0, _, cs => ([], cs)
  | _, _, [] => ([], [])
  | fuel + 1, st, c :: rest =>
    if c = '/' && rest.headD ' ' = '*' then
      let p := commentSpan (rest.drop 1)
      let (q, r2) := scanTok stops fuel st p.2.1
      (c :: '*' :: p.1 ++ q, r2)
    else if st.isEmpty && stops.contains c then ([], c :: rest)
    else
      let (q, r) := scanTok stops fuel (pushPop st c) rest
      (c :: q, r)

/-- Modelled from the spec: the collaborator's `parse(text)` turns CSS
text into the ordered item sequence of the data model.  `fuel` bounds
the number of items; every item consumes at least one character, so
`length + 1` fuel always suffices. -/
def parseGo : Nat → List Char → List CNode
  | 0, _ => []
  | _, [] => []
  | fuel + 1, c :: rest =>
    if isPyWs c then
      CNode.wsp ((c :: rest).takeWhile isPyWs) ::
        parseGo fuel ((c :: rest).dropWhile isPyWs)
    else if c = '/' && rest.headD ' ' = '*' then
      let (txt, r) := scanComment (rest.drop 1)
      CNode.comment txt :: parseGo fuel r
    else if c = '}' then
      CNode.errNode :: parseGo fuel rest
    else if c = '@' && identChar (rest.headD ' ') then
      let kw := rest.takeWhile identChar
      let after := rest.dropWhile identChar
      let (pre, r2) := scanTok ['{', ';'] (after.length + 1) [] after
      match r2 with
      | '{' :: r3 =>
        let (content, r4) := scanTok ['}'] (r3.length + 1) [] r3
        CNode.atRule kw pre (some content) :: parseGo fuel (r4.drop 1)
      | ';' :: r3 => CNode.atRule kw pre none :: parseGo fuel r3
      | _ => [CNode.atRule kw pre none]
    else
      let (pre, r2) := scanTok ['{'] (rest.length + 2) [] (c :: rest)
      match r2 with
      | '{' :: r3 =>
        let (content, r4) := scanTok ['}'] (r3.length + 1) [] r3
        CNode.qrule pre content :: parseGo fuel (r4.drop 1)
      | _ => [CNode.errNode]

/-- `tinycss2.parse_stylesheet` on a character span. -/
def parseStylesheetChars (cs : List Char) : List CNode :=
  parseGo (cs.length + 1) cs

/-- `parse_stylesheet` of `parser.py` (string entry point;
`skip_whitespace=False, skip_comments=False`). -/
def parseStylesheet (css : String) : List CNode :=
  parseStylesheetChars css.toList

/-- Split a declaration block into `;`-separated chunks; a `;` inside
brackets or a comment does not separate (same component-value scan as
the rule parser); a trailing empty chunk is dropped. -/
def splitDecls : Nat → List Char → List (List Char)
  | 0, cs => if cs.isEmpty then [] else [cs]
  | fuel + 1, cs =>
    match scanTok [';'] (cs.length + 1) [] cs with
    | (ch, []) => if ch.isEmpty then [] else [ch]
    | (ch, _ :: r) => ch :: splitDecls fuel r

/-- Detect and strip a trailing `!important` (case-insensitive,
whitespace allowed around the `!`), as the collaborator's declaration
parser does; returns the remaining value span and the flag. -/
def stripImportant (v : List Char) : List Char × Bool :=
  let r := pyTrimRight v
  if 9 ≤ r.length ∧ (lowerChars r).drop (r.length - 9) = "important".toList then
    let r2 := pyTrimRight (r.take (r.length - 9))
    match r2.reverse with
    | '!' :: rev => (rev.reverse, true)
    | _ => (v, false)
  else (v, false)

/-- Split at the first `:`; `none` when absent. -/
def splitColon : List Char → Option (List Char × List Char)
  | [] => none
  | c :: rest =>
    if c = ':' then some ([], rest)
    else (splitColon rest).map (fun p => (c :: p.1, p.2))

/-- Parse one declaration core (no leading whitespace or comment): name
before the first `:`, value after it with `!important` stripped.  A
missing colon, an empty name, or a name that is not a single identifier
token (internal whitespace or any non-ident character) yields a
parse-error item, as the collaborator reports. -/
def parseDeclCore (cs : List Char) : DItem :=
  match splitColon cs with
  | none => DItem.errItem
  | some (n0, v0) =>
    let name := pyTrim n0
    if name.isEmpty || !(name.all identChar) then DItem.errItem
    else
      let (v, imp) := stripImportant v0
      DItem.decl name v imp

/-- Items of one `;`-chunk: leading whitespace and comments become their
own items, the remainder a declaration (or error). -/
def processChunk : Nat → List Char → List DItem
  | 0, _ => []
  | _, [] => []
  | fuel + 1, c :: rest =>
    if isPyWs c then
      DItem.wsp ((c :: rest).takeWhile isPyWs) ::
        processChunk fuel ((c :: rest).dropWhile isPyWs)
    else if c = '/' && rest.headD ' ' = '*' then
      let (txt, r) := scanComment (rest.drop 1)
      DItem.comment txt :: processChunk fuel r
    else [parseDeclCore (c :: rest)]

/-- `tinycss2.parse_declaration_list` on a character span
(`skip_whitespace=False, skip_comments=False`). -/
def parseDeclChars (cs : List Char) : List DItem :=
  (splitDecls (cs.length + 1) cs).flatMap
    (fun ch => processChunk (ch.length + 1) ch)

/-- Python `str.strip('{}')`. -/
def stripBraces (cs : List Char) : List Char :=
  ((cs.dropWhile (fun c => c = '{' || c = '}')).reverse.dropWhile
    (fun c => c = '{' || c = '}')).reverse

/-- `get_rule_declarations` of `parser.py`: serialize the rule's content
tokens, strip surrounding braces, parse as a declaration list. -/
def getRuleDeclarations (contentRaw : List Char) : List DItem :=
  parseDeclChars (stripBraces (closeBlocks contentRaw))

/-- `get_selector_text` of `parser.py`: serialize the prelude tokens and
strip surrounding whitespace. -/
def getSelectorText (preludeRaw : List Char) : List Char :=
  pyTrim (closeBlocks preludeRaw)

/-- Modelled from the spec: serialization of one declaration-list item;
an unmodified list round-trips to its source text (each declaration
re-emits `name:value[!important];`). -/
def serializeDItem : DItem → List Char
  | DItem.decl name value imp =>
    name ++ ':' :: closeBlocks value ++
      (if imp then "!important".toList else []) ++ [';']
  | DItem.comment txt => '/' :: '*' :: txt ++ ['*', '/']
  | DItem.wsp txt => txt
  | DItem.errItem => []

/-- `tinycss2.serialize` on a declaration list. -/
def serializeDecls (items : List DItem) : List Char :=
  items.flatMap serializeDItem

/-- Modelled from the spec: serialization of one stylesheet item back to
CSS text (round-trips unmodified items). -/
def serializeCNode : CNode → List Char
  | CNode.qrule pre content =>
    closeBlocks pre ++ '{' :: closeBlocks content ++ ['}']
  | CNode.atRule kw pre block =>
    '@' :: kw ++ closeBlocks pre ++
      (match block with
       | some b => '{' :: closeBlocks b ++ ['}']
       | none => [';'])
  | CNode.comment txt => '/' :: '*' :: txt ++ ['*', '/']
  | CNode.wsp txt => txt
  | CNode.errNode => []

/-- `tinycss2.serialize` on a list of stylesheet items. -/
def serializeCNodes (nodes : List CNode) : List Char :=
  nodes.flatMap serializeCNode

/-! ## `minifier.py` -/

/-- Selector combinator characters whose surrounding whitespace
`minify_css` removes. -/
def isSelDelim (c : Char) : Bool :=
  c = ',' || c = '>' || c = '+' || c = '~'

/-- Core of `re.sub(r'\s*([,>+~])\s*', r'\1', selector)`: a whitespace
character is dropped exactly when the nearest non-whitespace character
on one of its sides is a combinator; `prevDelim` records whether the
nearest non-whitespace character to the left is one. -/
def squashGo (prevDelim : Bool) : List Char → List Char
  | [] => []
  | c :: rest =>
    if isPyWs c then
      if prevDelim || isSelDelim ((rest.dropWhile isPyWs).headD 'x') then
        squashGo prevDelim rest
      else c :: squashGo prevDelim rest
    else c :: squashGo (isSelDelim c) rest

/-- `re.sub(r'\s*([,>+~])\s*', r'\1', selector)` of `minify_css`. -/
def squashSel (cs : List Char) : List Char := squashGo false cs

/-- Hex-colour minimisation of `minify_css`: a value of exactly seven
characters starting with `#` collapses to four when the three nibble
pairs each agree. -/
def hexShorten : List Char → List Char
  | ['#', a, b, c, d, e, f] =>
    if a = b ∧ c = d ∧ e = f then ['#', a, c, e]
    else ['#', a, b, c, d, e, f]
  | v => v

/-- `tinycss2.serialize(decl.value).strip()`, the value string every
emitter works on. -/
def declValue (v : List Char) : List Char := pyTrim (closeBlocks v)

/-- One declaration as `minify_css` emits it:
`f"{decl.name}:{value}{important};"` with the hex-shortened value. -/
def minifyDeclFrag (name v : List Char) (imp : Bool) : List Char :=
  name ++ ':' :: hexShorten (declValue v) ++
    (if imp then "!important".toList else []) ++ [';']

/-- The declaration content of one qualified rule in `minify_css`
(comments and whitespace are filtered out first). -/
def minifyRuleBody (items : List DItem) : List Char :=
  items.flatMap fun it =>
    match it with
    | DItem.decl n v i => minifyDeclFrag n v i
    | _ => []

/-- The at-rule keywords `minify_css` recurses into
(`rule.lower_at_keyword == "media" or rule.lower_at_keyword ==
"keyframes"`). -/
def minifyRecurses (lo : List Char) : Bool :=
  lo = "media".toList || lo = "keyframes".toList

/-- `minify_css` of `minifier.py` over parsed items.  `none` models the
uncaught `TypeError` the source raises when a `media`/`keyframes`
statement at-rule has no block (`tinycss2.serialize(None)`); the fuel
decreases on every item and on every descent into an at-rule block, so
`length + 1` fuel suffices for any real stylesheet. -/
def minifyGo : Nat → List CNode → Option (List Char)
  | _, [] => some []
  | 0, _ :: _ => none
  | fuel + 1, n :: rest =>
    match n with
    | CNode.qrule pre content =>
      let sel := squashSel (getSelectorText pre)
      let body := minifyRuleBody (getRuleDeclarations content)
      (minifyGo fuel rest).map fun tail =>
        (if body.isEmpty then [] else sel ++ '{' :: body ++ ['}']) ++ tail
    | CNode.atRule kw pre block =>
      let lo := lowerChars kw
      if minifyRecurses lo then
        match block with
        | none => none
        | some raw =>
          match minifyGo fuel (parseStylesheetChars (closeBlocks raw)) with
          | none => none
          | some inner =>
            (minifyGo fuel rest).map fun tail =>
              '@' :: lo ++ ' ' :: pyTrim (closeBlocks pre) ++
                '{' :: inner ++ ['}'] ++ tail
      else
        (minifyGo fuel rest).map fun tail =>
          '@' :: lo ++ ' ' :: pyTrim (closeBlocks pre) ++ [';'] ++ tail
    | _ => minifyGo fuel rest

/-- `minify_css` on a character span. -/
def minifyCssChars (cs : List Char) : Option (List Char) :=
  minifyGo (cs.length + 1) (parseStylesheetChars cs)

/-- `minify_css` of `minifier.py` (string entry point). -/
def minifyCss (css : String) : Option String :=
  (minifyCssChars css.toList).map List.asString

/-! ## Shared dictionary model

Python `dict` preserves the insertion position of a key; assigning to an
existing key overwrites the value in place, and `values()` lists values
in key-insertion order. -/

/-- `d[k] = v` on an association list modelling a Python dict. -/
def updAssoc {κ β : Type} [DecidableEq κ] (m : List (κ × β)) (k : κ) (v : β) :
    List (κ × β) :=
  if m.any (fun p => p.1 = k) then
    m.map (fun p => if p.1 = k then (p.1, v) else p)
  else m ++ [(k, v)]

/-- `d.get(k)` on an association list. -/
def getAssoc {κ β : Type} [DecidableEq κ] (m : List (κ × β)) (k : κ) : Option β :=
  (m.find? (fun p => p.1 = k)).map (fun p => p.2)

/-- `d.setdefault(k, []).append(v)` (the repository's
`if k not in d: d[k] = []` followed by `d[k].append(v)`). -/
def appendAssoc (m : List (String × List String)) (k : String) (v : String) :
    List (String × List String) :=
  if m.any (fun p => p.1 = k) then
    m.map (fun p => if p.1 = k then (p.1, p.2 ++ [v]) else p)
  else m ++ [(k, [v])]

/-- Keep the first occurrence of each element (`list(set(..))` /
membership-guarded append, order modelled as first-seen). -/
def dedupKeepFirst {α : Type} [DecidableEq α] (seen : List α) :
    List α → List α
  | [] => []
  | x :: rest =>
    if x ∈ seen then dedupKeepFirst seen rest
    else x :: dedupKeepFirst (x :: seen) rest

/-! ## `extractor.py` -/

/-- `css.count('{') != css.count('}')`, the pre-parse brace check. -/
def unbalancedBraces (cs : List Char) : Bool :=
  cs.count '{' ≠ cs.count '}'

/-- Does the parse contain a structural-error item
(`rule.type == 'error'`)? -/
def hasParseError (nodes : List CNode) : Bool :=
  nodes.any (fun n => n = CNode.errNode)

/-- Hexadecimal digit. -/
def isHexDigit (c : Char) : Bool :=
  c.isDigit || ('a' ≤ c ∧ c ≤ 'f') || ('A' ≤ c ∧ c ≤ 'F')

/-- Truth of `re.search(hex_pattern, value)`: some `#` is followed by at
least three hex digits (the 6- and 8-digit alternatives imply the
3-digit one, so as a boolean this is the whole pattern). -/
def hasHexColor : List Char → Bool
  | [] => false
  | c :: rest =>
    (c = '#' && decide (3 ≤ rest.length) && (rest.take 3).all isHexDigit) ||
      hasHexColor rest

/-- `\s*\d+\s*` then the given terminator character. -/
def eatNum (cs : List Char) : Option (List Char) :=
  let cs1 := cs.dropWhile isPyWs
  let d := cs1.takeWhile Char.isDigit
  if d.isEmpty then none else some ((cs1.dropWhile Char.isDigit).dropWhile isPyWs)

/-- `\s*[0-9.]+\s*`. -/
def eatNumDot (cs : List Char) : Option (List Char) :=
  let cs1 := cs.dropWhile isPyWs
  let d := cs1.takeWhile (fun c => c.isDigit || c = '.')
  if d.isEmpty then none
  else some ((cs1.dropWhile (fun c => c.isDigit || c = '.')).dropWhile isPyWs)

/-- `\s*\d+%\s*`. -/
def eatNumPct (cs : List Char) : Option (List Char) :=
  let cs1 := cs.dropWhile isPyWs
  let d := cs1.takeWhile Char.isDigit
  match cs1.dropWhile Char.isDigit with
  | '%' :: r => if d.isEmpty then none else some (r.dropWhile isPyWs)
  | _ => none

/-- Expect one literal character. -/
def eatLit (c : Char) (cs : List Char) : Option (List Char) :=
  match cs with
  | c' :: r => if c' = c then some r else none
  | [] => none

/-- Match of `rgb\(\s*\d+\s*,\s*\d+\s*,\s*\d+\s*\)` at the current
position, given the characters after `rgb(`. -/
def rgbTail (cs : List Char) : Bool :=
  (do
    let r1 ← eatNum cs
    let r2 ← eatLit ',' r1
    let r3 ← eatNum r2
    let r4 ← eatLit ',' r3
    let r5 ← eatNum r4
    eatLit ')' r5).isSome

/-- Match of the `rgba(...)` pattern after `rgba(`. -/
def rgbaTail (cs : List Char) : Bool :=
  (do
    let r1 ← eatNum cs
    let r2 ← eatLit ',' r1
    let r3 ← eatNum r2
    let r4 ← eatLit ',' r3
    let r5 ← eatNum r4
    let r6 ← eatLit ',' r5
    let r7 ← eatNumDot r6
    eatLit ')' r7).isSome

/-- Match of the `hsl(...)` pattern after `hsl(`. -/
def hslTail (cs : List Char) : Bool :=
  (do
    let r1 ← eatNum cs
    let r2 ← eatLit ',' r1
    let r3 ← eatNumPct r2
    let r4 ← eatLit ',' r3
    let r5 ← eatNumPct r4
    eatLit ')' r5).isSome

/-- Match of the `hsla(...)` pattern after `hsla(`. -/
def hslaTail (cs : List Char) : Bool :=
  (do
    let r1 ← eatNum cs
    let r2 ← eatLit ',' r1
    let r3 ← eatNumPct r2
    let r4 ← eatLit ',' r3
    let r5 ← eatNumPct r4
    let r6 ← eatLit ',' r5
    let r7 ← eatNumDot r6
    eatLit ')' r7).isSome

/-- `re.search` of the four functional colour patterns. -/
def hasFunColor : List Char → Bool
  | [] => false
  | c :: rest =>
    (match c :: rest with
     | 'r' :: 'g' :: 'b' :: 'a' :: '(' :: r => rgbaTail r
     | 'r' :: 'g' :: 'b' :: '(' :: r => rgbTail r
     | 'h' :: 's' :: 'l' :: 'a' :: '(' :: r => hslaTail r
     | 'h' :: 's' :: 'l' :: '(' :: r => hslTail r
     | _ => false) ||
      hasFunColor rest

/-- The fixed named-colour list of `extract_colors`. -/
def namedColors : List String :=
  ["black", "white", "red", "green", "blue", "yellow",
   "purple", "orange", "brown", "gray", "transparent"]

/-- The fixed colour-property list of `extract_colors`. -/
def colorProperties : List String :=
  ["color", "background-color", "border-color", "border-top-color",
   "border-right-color", "border-bottom-color", "border-left-color",
   "outline-color", "text-decoration-color", "box-shadow", "text-shadow"]

/-- The colour test of `extract_colors` for one declaration:
`is_color_property or has_color_value`. -/
def isColorDecl (name value : List Char) : Bool :=
  colorProperties.any (fun p => p.toList = name) ||
    (hasHexColor value || hasFunColor value ||
      namedColors.any (fun p => p.toList = value))

/-- The recursive `process_rules` closure of `extract_colors`: records
`"{property}: {value}"` under the rule's selector and descends into the
block of every at-rule whose content is not `None`. -/
def colorsGo : Nat → List CNode → List (String × List String) →
    List (String × List String)
  | 0, _, acc => acc
  | _, [], acc => acc
  | fuel + 1, n :: rest, acc =>
    match n with
    | CNode.qrule pre content =>
      let selector := (getSelectorText pre).asString
      let acc' := (getRuleDeclarations content).foldl
        (fun a it =>
          match it with
          | DItem.decl nm v _ =>
            let value := declValue v
            if isColorDecl nm value then
              appendAssoc a selector (nm.asString ++ ": " ++ value.asString)
            else a
          | _ => a)
        acc
      colorsGo fuel rest acc'
    | CNode.atRule _ _ (some raw) =>
      colorsGo fuel rest
        (colorsGo fuel (parseStylesheetChars (closeBlocks raw)) acc)
    | _ => colorsGo fuel rest acc

/-- `extract_colors` of `extractor.py`. -/
def extractColors (css : String) : Except String (List (String × List String)) :=
  let cs := css.toList
  if unbalancedBraces cs then Except.error "CSS syntax error: Unbalanced braces"
  else
    let rules := parseStylesheetChars cs
    if hasParseError rules then Except.error "CSS parse error"
    else Except.ok (colorsGo (cs.length + 1) rules [])

/-- One rule recorded by `extract_media_queries`. -/
structure MqRule where
  selector : String
  properties : List (String × String)
  deriving Repr, DecidableEq

/-- The property map of one qualified rule: `props[decl.name] = value`
for each declaration, so a later occurrence of a name overwrites an
earlier one. -/
def propsOf (items : List DItem) : List (String × String) :=
  items.foldl
    (fun m it =>
      match it with
      | DItem.decl nm v _ => updAssoc m nm.asString (declValue v).asString
      | _ => m)
    []

/-- `extract_media_queries` of `extractor.py`. -/
def extractMediaQueries (css : String) :
    Except String (List (String × List MqRule)) :=
  let cs := css.toList
  if unbalancedBraces cs then Except.error "CSS syntax error: Unbalanced braces"
  else
    let rules := parseStylesheetChars cs
    if hasParseError rules then Except.error "CSS parse error"
    else
      rules.foldlM
        (fun m n =>
          match n with
          | CNode.atRule kw pre block =>
            if lowerChars kw = "media".toList then
              let condition := (getSelectorText pre).asString
              let m1 := if m.any (fun p => p.1 = condition) then m
                        else m ++ [(condition, [])]
              match block with
              | some raw =>
                if raw.isEmpty then Except.ok m1
                else
                  let inner := parseStylesheetChars (closeBlocks raw)
                  if hasParseError inner then
                    Except.error "Error parsing media query content"
                  else
                    Except.ok (inner.foldl
                      (fun m2 i =>
                        match i with
                        | CNode.qrule ipre icontent =>
                          let r : MqRule :=
                            ⟨(getSelectorText ipre).asString,
                             propsOf (getRuleDeclarations icontent)⟩
                          m2.map (fun p =>
                            if p.1 = condition then (p.1, p.2 ++ [r]) else p)
                        | _ => m2)
                      m1)
              | none => Except.ok m1
            else Except.ok m
          | _ => Except.ok m)
        []

/-- Animation-related property names scanned by
`find_animation_usage`. -/
def animationProperties : List String :=
  ["animation", "animation-name",
   "-webkit-animation", "-webkit-animation-name",
   "-moz-animation", "-moz-animation-name",
   "-ms-animation", "-ms-animation-name",
   "-o-animation", "-o-animation-name"]

/-- Python `str.strip("'\"")`. -/
def stripQuotes (cs : List Char) : List Char :=
  ((cs.dropWhile (fun c => c = '\'' || c = '"')).reverse.dropWhile
    (fun c => c = '\'' || c = '"')).reverse

/-- `find_animation_usage` of `extractor.py`; the error case models the
uncaught `IndexError` of `value.split()[0]` on an empty value. -/
def findAnimationUsage (rules : List CNode) :
    Except String (List (String × List String)) :=
  rules.foldlM
    (fun usage n =>
      match n with
      | CNode.qrule pre content =>
        let selector := (getSelectorText pre).asString
        (getRuleDeclarations content).foldlM
          (fun u it =>
            match it with
            | DItem.decl nm v _ =>
              if animationProperties.any (fun p => p.toList = nm) then
                let value := declValue v
                match value.dropWhile isPyWs with
                | [] => Except.error "IndexError: list index out of range"
                | c :: r =>
                  let tok := (c :: r).takeWhile (fun ch => !isPyWs ch)
                  Except.ok (appendAssoc u (stripQuotes tok).asString selector)
              else Except.ok u
            | _ => Except.ok u)
          usage
      | _ => Except.ok usage)
    []

/-- The keyframes at-keywords recognised by `extract_animations`
(standard and vendor-prefixed spellings). -/
def keyframesKeywords : List String :=
  ["keyframes", "-webkit-keyframes", "-moz-keyframes",
   "-ms-keyframes", "-o-keyframes"]

/-- One entry of the `extract_animations` result. -/
structure AnimEntry where
  keyframes : List (String × List (String × String))
  usedBy : List String
  deriving Repr, DecidableEq

/-- The keyframes map of one keyframes at-rule body: each qualified rule
keyed by its step selector (a percentage or `from`/`to`). -/
def keyframesOf (inner : List CNode) : List (String × List (String × String)) :=
  inner.foldl
    (fun kfs i =>
      match i with
      | CNode.qrule ipre icontent =>
        updAssoc kfs (getSelectorText ipre).asString
          (propsOf (getRuleDeclarations icontent))
      | _ => kfs)
    []

/-- One step of the first pass of `extract_animations`: a keyframes
at-rule (standard or vendor-prefixed keyword) stores its keyframes map
under the quote-stripped animation name; anything else is skipped. -/
def animStep (anims : List (String × List (String × List (String × String))))
    (n : CNode) :
    Except String (List (String × List (String × List (String × String)))) :=
  match n with
  | CNode.atRule kw pre block =>
    if keyframesKeywords.any (fun k => k.toList = lowerChars kw) then
      let animationName := (stripQuotes (getSelectorText pre)).asString
      match block with
      | some raw =>
        if raw.isEmpty then Except.ok (updAssoc anims animationName [])
        else
          let inner := parseStylesheetChars (closeBlocks raw)
          if hasParseError inner then
            Except.error "Error parsing @keyframes content"
          else Except.ok (updAssoc anims animationName (keyframesOf inner))
      | none => Except.ok (updAssoc anims animationName [])
    else Except.ok anims
  | _ => Except.ok anims

/-- First pass of `extract_animations`: collect every keyframes at-rule
into `name -> {step -> {property -> value}}`. -/
def animFirstPass (rules : List CNode) :
    Except String (List (String × List (String × List (String × String)))) :=
  rules.foldlM animStep []

/-- `extract_animations` of `extractor.py`. -/
def extractAnimations (css : String) :
    Except String (List (String × AnimEntry)) :=
  let cs := css.toList
  if unbalancedBraces cs then Except.error "CSS syntax error: Unbalanced braces"
  else
    let rules := parseStylesheetChars cs
    if hasParseError rules then Except.error "CSS parse error"
    else do
      let anims ← animFirstPass rules
      let usage ← findAnimationUsage rules
      Except.ok (anims.map (fun p =>
        (p.1, ⟨p.2, (getAssoc usage p.1).getD []⟩)))

/-- The fixed font-property list of `extract_fonts`. -/
def fontProperties : List String :=
  ["font", "font-family", "font-size", "font-weight", "font-style",
   "font-variant", "line-height", "text-transform", "letter-spacing"]

/-- One font declaration recorded by `extract_fonts`. -/
structure FontDecl where
  property : String
  value : String
  deriving Repr, DecidableEq

/-- `extract_fonts` of `extractor.py`.  The source performs no brace
pre-check and no parse-error check; it cannot raise, so the model is a
total function. -/
def extractFonts (css : String) : List (String × List FontDecl) :=
  (parseStylesheet css).foldl
    (fun fonts n =>
      match n with
      | CNode.qrule pre content =>
        let selector := (getSelectorText pre).asString
        let fontDecls := (getRuleDeclarations content).foldl
          (fun fd it =>
            match it with
            | DItem.decl nm v _ =>
              if fontProperties.any (fun p => p.toList = nm) then
                fd ++ [(⟨nm.asString, (declValue v).asString⟩ : FontDecl)]
              else fd
            | _ => fd)
          []
        if fontDecls.isEmpty then fonts
        else
          if fonts.any (fun p => p.1 = selector) then
            fonts.map (fun p =>
              if p.1 = selector then (p.1, p.2 ++ fontDecls) else p)
          else fonts ++ [(selector, fontDecls)]
      | _ => fonts)
    []

/-- `re.sub(r'::?[a-zA-Z-]+(\([^)]*\))?', '', selector)`: delete each
pseudo-class/element suffix (one or two colons, a name, optionally a
parenthesised argument with a closing parenthesis). -/
def stripPseudo : Nat → List Char → List Char
  | 0, cs => cs
  | _, [] => []
  | fuel + 1, c :: rest =>
    if c = ':' then
      let rest1 := if rest.headD ' ' = ':' then rest.drop 1 else rest
      let nm := rest1.takeWhile (fun ch => ch.isAlpha || ch = '-')
      if nm.isEmpty then c :: stripPseudo fuel rest
      else
        let afterName := rest1.dropWhile (fun ch => ch.isAlpha || ch = '-')
        match afterName with
        | '(' :: r =>
          let arg := r.takeWhile (fun ch => ch ≠ ')')
          match r.drop arg.length with
          | ')' :: r2 => stripPseudo fuel r2
          | _ => stripPseudo fuel afterName
        | _ => stripPseudo fuel afterName
    else c :: stripPseudo fuel rest

/-- `re.split(r'\s*[,>+~]\s*', ...)` followed by `part.strip()`:
splitting at combinator characters and stripping each part gives the
same parts as the original pattern. -/
def splitSelParts (acc : List Char) : List Char → List (List Char)
  | [] => [pyTrim acc.reverse]
  | c :: rest =>
    if isSelDelim c then pyTrim acc.reverse :: splitSelParts [] rest
    else splitSelParts (c :: acc) rest

/-- Python's `in` on strings: substring containment. -/
def isSubstring (needle : List Char) : List Char → Bool
  | [] => needle.isEmpty
  | c :: rest => needle.isPrefixOf (c :: rest) || isSubstring needle rest

/-- `extract_unused_selectors` of `extractor.py` (no brace pre-check, no
parse-error check; the heuristic never raises). -/
def extractUnusedSelectors (css html : String) : List String :=
  let allSelectors :=
    (parseStylesheet css).foldl
      (fun sels n =>
        match n with
        | CNode.qrule pre _ =>
          let selector := getSelectorText pre
          let base := stripPseudo (selector.length + 1) selector
          (splitSelParts [] base).foldl
            (fun s part =>
              if part.isEmpty then s
              else if s.any (fun q => q = part.asString) then s
              else s ++ [part.asString])
            sels
        | _ => sels)
      []
  allSelectors.foldl
    (fun unused selector =>
      match selector.toList with
      | '.' :: nm =>
        if isSubstring ("class=\"" ++ nm.asString ++ "\"").toList html.toList ||
            isSubstring ("class='" ++ nm.asString ++ "'").toList html.toList then
          unused
        else unused ++ [selector]
      | '#' :: nm =>
        if isSubstring ("id=\"" ++ nm.asString ++ "\"").toList html.toList ||
            isSubstring ("id='" ++ nm.asString ++ "'").toList html.toList then
          unused
        else unused ++ [selector]
      | _ => unused)
    []

/-! ## `modifier.py` -/

/-- Python `str.splitlines()` restricted to `\n` separators (the only
line breaks the formatters produce). -/
def splitNl (acc : List Char) : List Char → List (List Char)
  | [] => [acc.reverse]
  | c :: rest =>
    if c = '\n' then acc.reverse :: splitNl [] rest
    else splitNl (c :: acc) rest

/-- The re-indentation idiom of `modifier.py`:
`"\n".join(indent + line.strip() for line in text.splitlines() if
line.strip())`. -/
def indentLines (indent : List Char) (cs : List Char) : List Char :=
  List.intercalate ['\n']
    (((splitNl [] cs).map pyTrim).filter (fun l => !l.isEmpty)
      |>.map (fun l => indent ++ l))

/-- The rule format of `modifier.py`:
`f"{rule_selector} {{\n{serialized_content}\n}}\n"` with the serialized
declarations stripped and re-indented. -/
def fmtModRule (sel : List Char) (serialized : List Char) : List Char :=
  sel ++ " \x7b\n".toList ++
    indentLines "    ".toList (pyTrim serialized) ++ "\n\x7d\n".toList

/-- The `tinycss2.ast.Declaration` that `add_property_to_selector` and
`modify_property_value` construct: value tokens are one space and one
ident. -/
def newDecl (p v : List Char) (imp : Bool) : DItem :=
  DItem.decl p (' ' :: v) imp

/-- The replace loop of `add_property_to_selector`: replace the first
declaration whose name is the property, report whether one existed. -/
def replaceFirstDecl (p : List Char) (d : DItem) :
    List DItem → List DItem × Bool
  | [] => ([], false)
  | it :: rest =>
    match it with
    | DItem.decl nm v i =>
      if nm = p then (d :: rest, true)
      else
        let (r, b) := replaceFirstDecl p d rest
        (DItem.decl nm v i :: r, b)
    | other =>
      let (r, b) := replaceFirstDecl p d rest
      (other :: r, b)

/-- Is a declaration-list item a whitespace token? -/
def isWspItem : DItem → Bool
  | DItem.wsp _ => true
  | _ => false

/-- The append branch of `add_property_to_selector`: a whitespace token
is inserted first unless the list already ends with one. -/
def appendNewDecl (items : List DItem) (d : DItem) : List DItem :=
  if !items.isEmpty && !isWspItem (items.getLastD DItem.errItem) then
    items ++ [DItem.wsp "\n    ".toList, d]
  else items ++ [d]

/-- The brand-new rule `add_property_to_selector` emits when no rule
matched the selector. -/
def newRuleText (sel p v : List Char) (imp : Bool) : List Char :=
  '\n' :: sel ++ " \x7b\n    ".toList ++ p ++ ':' :: ' ' :: v ++
    (if imp then " !important".toList else []) ++ ";\n\x7d\n".toList

/-- The loop of `add_property_to_selector`: every qualified rule is
re-emitted through the formatter (with the transformation applied when
its selector matches), other items are serialized unchanged, and the
`found_selector` flag decides the trailing new rule. -/
def addPropGo (sel p v : List Char) (imp : Bool) :
    List CNode → Bool → List Char
  | [], found => if found then [] else newRuleText sel p v imp
  | n :: rest, found =>
    match n with
    | CNode.qrule pre content =>
      let rsel := getSelectorText pre
      let decls := getRuleDeclarations content
      if rsel = sel then
        let r := replaceFirstDecl p (newDecl p v imp) decls
        let d3 := if r.2 then r.1 else appendNewDecl decls (newDecl p v imp)
        fmtModRule rsel (serializeDecls d3) ++ addPropGo sel p v imp rest true
      else
        fmtModRule rsel (serializeDecls decls) ++ addPropGo sel p v imp rest found
    | other => serializeCNode other ++ addPropGo sel p v imp rest found

/-- `add_property_to_selector` of `modifier.py`. -/
def addPropertyToSelector (css sel p v : String) (imp : Bool) : String :=
  (pyTrim (addPropGo sel.toList p.toList v.toList imp (parseStylesheet css)
    false)).asString

/-- `process_declarations` of `add_prefix_to_property`: after appending
a matching declaration, one prefixed copy (sharing the value tokens and
the `important` flag) plus a whitespace token are inserted before it,
per prefix in order. -/
def processDeclarations (p : List Char) (prefs : List (List Char)) :
    List DItem → List DItem
  | [] => []
  | it :: rest =>
    (match it with
     | DItem.decl nm v i =>
       if nm = p then
         (prefs.flatMap (fun pr =>
           [DItem.decl (pr ++ p) v i, DItem.wsp "\n    ".toList])) ++
           [DItem.decl nm v i]
       else [it]
     | _ => [it]) ++ processDeclarations p prefs rest

/-- `process_rules` of `add_prefix_to_property`: qualified rules are
re-emitted with prefixed declarations at the current indent, at-rules
with blocks recurse one level deeper, everything else is serialized
behind the indent. -/
def prefixRulesGo (p : List Char) (prefs : List (List Char)) :
    Nat → Nat → List CNode → List Char
  | 0, _, _ => []
  | _, _, [] => []
  | fuel + 1, level, n :: rest =>
    let indent := List.replicate (4 * level) ' '
    (match n with
     | CNode.qrule pre content =>
       let rsel := getSelectorText pre
       let newDs := processDeclarations p prefs (getRuleDeclarations content)
       indent ++ rsel ++ " \x7b\n".toList ++
         indentLines (indent ++ "    ".toList) (pyTrim (serializeDecls newDs)) ++
         '\n' :: indent ++ "\x7d\n".toList
     | CNode.atRule kw pre (some raw) =>
       indent ++ '@' :: kw ++ ' ' :: pyTrim (closeBlocks pre) ++ " \x7b\n".toList ++
         prefixRulesGo p prefs fuel (level + 1)
           (parseStylesheetChars (closeBlocks raw)) ++
         indent ++ "\x7d\n".toList
     | other => indent ++ serializeCNode other) ++
      prefixRulesGo p prefs fuel level rest

/-- `add_prefix_to_property` of `modifier.py` (exposed as
`add_vendor_prefix`). -/
def addPrefixToProperty (css p : String) (prefs : List String) : String :=
  (pyTrim (prefixRulesGo p.toList (prefs.map String.toList)
    (css.toList.length + 1) 0 (parseStylesheet css))).asString

/-! ## `remove_duplicates` of `minifier.py` -/

/-- A component value at the top level of a block's raw token span:
whitespace, a comment, a bracketed block (consumed atomically), or a
single other character.  This mirrors the collaborator's token list
held in an unmerged at-rule's `content`: no item in it ever has type
`qualified-rule`. -/
inductive Tok where
  | twsp (text : List Char)
  | tcomment (text : List Char)
  | tblock (op : Char) (inner : List Char)
  | tother (c : Char)
  deriving Repr, DecidableEq

/-- Scan a bracket pair of one kind, already `depth` levels inside:
content up to the matching closer (consumed), closing at end of
input. -/
def scanPair (op cl : Char) : Nat → List Char → (List Char × List Char)
  | _, [] => ([], [])
  | depth, c :: rest =>
    if c = cl then
      match depth with
      | 0 => ([], rest)
      | 1 => ([], rest)
      | d + 2 =>
        let (b, r) := scanPair op cl (d + 1) rest
        (c :: b, r)
    else
      let (b, r) := scanPair op cl (if c = op then depth + 1 else depth) rest
      (c :: b, r)

/-- Modelled from the spec: the component values of a raw token span, as
the collaborator's tokeniser yields them at the top level of a block. -/
def tokensOf : Nat → List Char → List Tok
  | 0, _ => []
  | _, [] => []
  | fuel + 1, c :: rest =>
    if isPyWs c then
      Tok.twsp ((c :: rest).takeWhile isPyWs) ::
        tokensOf fuel ((c :: rest).dropWhile isPyWs)
    else if c = '/' && rest.headD ' ' = '*' then
      let (txt, r) := scanComment (rest.drop 1)
      Tok.tcomment txt :: tokensOf fuel r
    else if isOpener c then
      let (inner, r) := scanPair c (closerFor c) 1 rest
      Tok.tblock c inner :: tokensOf fuel r
    else Tok.tother c :: tokensOf fuel rest

/-- A rule slot during `remove_duplicates`: either an untouched parsed
item, or a media at-rule whose `content` has been replaced by a parsed
rule list during merging. -/
inductive RNode where
  | node (n : CNode)
  | mediaMerged (keyword preludeRaw : List Char) (rules : List CNode)
  deriving Repr, DecidableEq

/-- Lexicographic order on character lists (Python string `<=`). -/
def charListLe : List Char → List Char → Bool
  | [], _ => true
  | _ :: _, [] => false
  | a :: as_, b :: bs =>
    if a = b then charListLe as_ bs else decide (a < b)

/-- Stable insertion: place `a` before the first element not strictly
below it, so elements equal under `le` keep their original order
(Python `sorted` is stable). -/
def insStable {α : Type} (le : α → α → Bool) (a : α) : List α → List α
  | [] => [a]
  | b :: rest =>
    if le b a && !le a b then b :: insStable le a rest
    else a :: b :: rest

/-- Stable sort (Python `sorted`). -/
def sortStable {α : Type} (le : α → α → Bool) : List α → List α
  | [] => []
  | a :: rest => insStable le a (sortStable le rest)

/-- The within-rule dedup of `remove_duplicates`' second pass: a map
keyed by declaration name (later occurrences overwrite earlier ones),
whose values are then sorted by name; comment items are kept aside. -/
def dedupSortDecls (items : List DItem) :
    List (List Char × DItem) × List (List Char) :=
  let uniqueProps := items.foldl
    (fun m it =>
      match it with
      | DItem.decl nm v i => updAssoc m nm (DItem.decl nm v i)
      | _ => m)
    []
  let commentTexts := items.filterMap
    (fun it => match it with | DItem.comment t => some t | _ => none)
  (sortStable (fun a b => charListLe a.1 b.1) uniqueProps, commentTexts)

/-- One formatted rule body of `remove_duplicates`: sorted declarations
as `{name}: {value}[ !important];` lines, comments appended after. -/
def rdRuleContent (indent : List Char) (items : List DItem) : List Char :=
  let (sorted, commentTexts) := dedupSortDecls items
  sorted.flatMap
    (fun p =>
      match p.2 with
      | DItem.decl nm v i =>
        indent ++ nm ++ ':' :: ' ' :: declValue v ++
          (if i then " !important".toList else []) ++ ";\n".toList
      | _ => []) ++
    commentTexts.flatMap
      (fun t => indent ++ "/* ".toList ++ t ++ " */\n".toList)

/-- First pass of `remove_duplicates`: `rules[i] = None` tombstones for
repeated selectors and repeated media conditions; a repeated media
condition's body is merged into the first occurrence, whose `content`
becomes a parsed rule list.  The declaration-level merges of the source
mutate freshly parsed lists that are then discarded, so they leave the
accumulator unchanged; only whole rules with previously unseen selectors
are appended.  `none` models the uncaught `TypeError` of
`tinycss2.serialize(None)` when a block-less media at-rule is merged. -/
def rdFirstPass :
    List CNode → List (Option RNode) → List (List Char × Nat) →
      List (List Char × Nat) → Option (List (Option RNode))
  | [], out, _, _ => some out
  | n :: rest, out, selMap, mediaMap =>
    match n with
    | CNode.qrule pre content =>
      let sel := getSelectorText pre
      match selMap.find? (fun p => p.1 = sel) with
      | some _ => rdFirstPass rest (out ++ [none]) selMap mediaMap
      | none =>
        rdFirstPass rest (out ++ [some (RNode.node (CNode.qrule pre content))])
          (selMap ++ [(sel, out.length)]) mediaMap
    | CNode.atRule kw pre block =>
      if lowerChars kw = "media".toList then
        let cond := getSelectorText pre
        match mediaMap.find? (fun p => p.1 = cond) with
        | some pj =>
          match out.get? pj.2 with
          | some (some existing) =>
            let exContent : Option (List Char) :=
              match existing with
              | RNode.node (CNode.atRule _ _ (some raw)) => some (closeBlocks raw)
              | RNode.mediaMerged _ _ rs => some (serializeCNodes rs)
              | _ => none
            match exContent, block with
            | some exC, some newRaw =>
              let exRules := parseStylesheetChars exC
              let newRules := parseStylesheetChars (closeBlocks newRaw)
              let exSelectors := exRules.filterMap
                (fun r => match r with
                  | CNode.qrule p _ => some (getSelectorText p)
                  | _ => none)
              let merged := exRules ++ newRules.filter
                (fun r => match r with
                  | CNode.qrule p _ => !exSelectors.contains (getSelectorText p)
                  | _ => false)
              let (ekw, epre) :=
                match existing with
                | RNode.node (CNode.atRule k p _) => (k, p)
                | RNode.mediaMerged k p _ => (k, p)
                | _ => (kw, pre)
              rdFirstPass rest
                ((out.set pj.2 (some (RNode.mediaMerged ekw epre merged))) ++
                  [none])
                selMap mediaMap
            | _, _ => none
          | _ => none
        | none =>
          rdFirstPass rest
            (out ++ [some (RNode.node (CNode.atRule kw pre block))]) selMap
            (mediaMap ++ [(cond, out.length)])
      else
        rdFirstPass rest
          (out ++ [some (RNode.node (CNode.atRule kw pre block))]) selMap
          mediaMap
    | other =>
      rdFirstPass rest (out ++ [some (RNode.node other)]) selMap mediaMap

/-- The fragment the second pass of `remove_duplicates` emits for one
inner item of a media block whose content is still the raw token list:
only comment tokens produce output, and no token ever has type
`qualified-rule`. -/
def rdRawMediaItem (t : Tok) : List Char :=
  match t with
  | Tok.tcomment txt => "    /* ".toList ++ txt ++ " */\n".toList
  | _ => []

/-- The fragment the second pass emits for one inner item of a merged
media block (a parsed rule list). -/
def rdParsedMediaItem (cr : CNode) : List Char :=
  match cr with
  | CNode.qrule p c =>
    "    ".toList ++ getSelectorText p ++ " \x7b\n".toList ++
      rdRuleContent "        ".toList (getRuleDeclarations c) ++
      "    \x7d\n\n".toList
  | CNode.comment t => "    /* ".toList ++ t ++ " */\n".toList
  | _ => []

/-- The fragment the second pass of `remove_duplicates` emits for one
surviving slot: qualified rules go through the dedup/sort formatter,
media at-rules emit their (raw or merged) content, anything else is
serialized followed by a newline.  `none` models iterating the `None`
content of a block-less media at-rule. -/
def rdFragOf : RNode → Option (List Char)
  | RNode.node (CNode.qrule pre content) =>
    some (getSelectorText pre ++ " \x7b\n".toList ++
      rdRuleContent "    ".toList (getRuleDeclarations content) ++
      "\x7d\n\n".toList)
  | RNode.node (CNode.atRule kw pre block) =>
    if lowerChars kw = "media".toList then
      match block with
      | none => none
      | some raw =>
        some ("@media ".toList ++ getSelectorText pre ++ " \x7b\n".toList ++
          (tokensOf (raw.length + 1) raw).flatMap rdRawMediaItem ++
          "\x7d\n\n".toList)
    else some (serializeCNode (CNode.atRule kw pre block) ++ ['\n'])
  | RNode.mediaMerged _ pre rules =>
    some ("@media ".toList ++ getSelectorText pre ++ " \x7b\n".toList ++
      rules.flatMap rdParsedMediaItem ++ "\x7d\n\n".toList)
  | RNode.node other => some (serializeCNode other ++ ['\n'])

/-- Second pass of `remove_duplicates`: skip tombstones and concatenate
the per-slot fragments. -/
def rdSecondPass : List (Option RNode) → Option (List Char)
  | [] => some []
  | none :: rest => rdSecondPass rest
  | some r :: rest => do
    let frag ← rdFragOf r
    let tail ← rdSecondPass rest
    some (frag ++ tail)

/-- `remove_duplicates` of `minifier.py` (no brace or parse-error
pre-check in the source). -/
def removeDuplicates (css : String) : Option String := do
  let out ← rdFirstPass (parseStylesheet css) [] [] []
  let r ← rdSecondPass out
  some r.asString

/-! ## `analyze_stylesheet` and helpers of `parser.py` -/

/-- `extract_comments` of `parser.py`: the comment tokens of the
top-level component-value list. -/
def extractComments (css : String) : List String :=
  (tokensOf (css.toList.length + 1) css.toList).filterMap
    (fun t => match t with
      | Tok.tcomment txt => some txt.asString
      | _ => none)

/-- First string or ident component inside the arguments of a quoted
`url(...)` function token. -/
def scanUrlArg : Nat → List Char → Option String
  | 0, _ => none
  | _, [] => none
  | fuel + 1, c :: rest =>
    if isPyWs c then scanUrlArg fuel rest
    else if c = '"' then
      some ((rest.takeWhile (fun ch => ch ≠ '"')).asString)
    else if c = '\'' then
      some ((rest.takeWhile (fun ch => ch ≠ '\'')).asString)
    else if identChar c then
      some (((c :: rest).takeWhile identChar).asString)
    else scanUrlArg fuel rest

/-- The token scan of `extract_imports` over an `@import` prelude: the
first quoted `url(...)` function token or string token yields the URL,
and everything after it is the media-query token span.  An unquoted
`url(...)` is a url token, which the source's loop does not match, so it
is skipped. -/
def scanImportUrl : Nat → List Char → Option (String × List Char)
  | 0, _ => none
  | _, [] => none
  | fuel + 1, c :: rest =>
    if c = '"' then
      let s := rest.takeWhile (fun ch => ch ≠ '"')
      some (s.asString, (rest.drop s.length).drop 1)
    else if c = '\'' then
      let s := rest.takeWhile (fun ch => ch ≠ '\'')
      some (s.asString, (rest.drop s.length).drop 1)
    else if identChar c then
      let run := (c :: rest).takeWhile identChar
      let after := (c :: rest).dropWhile identChar
      match after with
      | '(' :: inner0 =>
        let (inner, r) := scanPair '(' ')' 1 inner0
        if lowerChars run = "url".toList &&
            (inner.dropWhile isPyWs).headD ' ' ∈ ['"', '\''] then
          match scanUrlArg (inner.length + 1) inner with
          | some u => some (u, r)
          | none => none
        else scanImportUrl fuel r
      | _ => scanImportUrl fuel after
    else scanImportUrl fuel rest

/-- `extract_imports` of `parser.py`. -/
def extractImports (rules : List CNode) :
    List String × List (String × String) :=
  rules.foldl
    (fun acc n =>
      match n with
      | CNode.atRule kw pre _ =>
        if lowerChars kw = "import".toList then
          match scanImportUrl (pre.length + 1) pre with
          | some (url, mediaToks) =>
            let imports := acc.1 ++ [url]
            let mq := pyTrim (closeBlocks mediaToks)
            if !mediaToks.isEmpty && !mq.isEmpty then
              (imports, updAssoc acc.2 url mq.asString)
            else (imports, acc.2)
          | none => acc
        else acc
      | _ => acc)
    ([], [])

/-- `extract_colors_and_fonts` of `parser.py`. -/
def extractColorsAndFonts (value propertyName : String) :
    List String × List String :=
  let colors :=
    if propertyName = "color" || propertyName = "background-color" ||
        propertyName = "border-color" || value.toList.contains '#' then
      [value]
    else []
  let fonts :=
    if propertyName = "font-family" || propertyName = "font" then [value]
    else []
  (colors, fonts)

/-- Per-media-query detail record of `analyze_stylesheet`. -/
structure MqDetail where
  selectors : List String
  properties : List (String × Nat)
  deriving Repr, DecidableEq

/-- The accumulator threaded through `process_rule_block`. -/
structure RbState where
  selectors : List String
  properties : List (String × Nat)
  colors : List String
  fonts : List String
  mediaQueryList : List String
  mediaQueryDetails : List (String × MqDetail)
  selectorProperties : List (String × List (String × String))
  deriving Repr, DecidableEq

/-- `process_declaration` of `parser.py`. -/
def processDeclaration (selector : String) (parentMedia : Option String)
    (st : RbState) (it : DItem) : RbState :=
  match it with
  | DItem.decl nm v _ =>
    let propertyName := nm.asString
    let value := (declValue v).asString
    let props := updAssoc st.properties propertyName
      ((getAssoc st.properties propertyName).getD 0 + 1)
    let details :=
      match parentMedia with
      | some m =>
        st.mediaQueryDetails.map (fun p =>
          if p.1 = m then
            (p.1, ⟨p.2.selectors,
              updAssoc p.2.properties propertyName
                ((getAssoc p.2.properties propertyName).getD 0 + 1)⟩)
          else p)
      | none => st.mediaQueryDetails
    let selProps := st.selectorProperties.map (fun p =>
      if p.1 = selector then (p.1, updAssoc p.2 propertyName value) else p)
    let (newColors, newFonts) := extractColorsAndFonts value propertyName
    { st with
      properties := props
      mediaQueryDetails := details
      selectorProperties := selProps
      colors := st.colors ++ newColors
      fonts := st.fonts ++ newFonts }
  | _ => st

/-- `process_qualified_rule` of `parser.py`. -/
def processQualifiedRule (parentMedia : Option String) (st : RbState)
    (pre content : List Char) : RbState :=
  let selector := (getSelectorText pre).asString
  let st1 :=
    match parentMedia with
    | some m =>
      let withEntry : List (String × MqDetail) :=
        if st.mediaQueryDetails.any (fun p => p.1 = m) then
          st.mediaQueryDetails
        else st.mediaQueryDetails ++ [(m, (⟨[], []⟩ : MqDetail))]
      { st with
        mediaQueryDetails := withEntry.map (fun p : String × MqDetail =>
          if p.1 = m then
            (p.1, (⟨p.2.selectors ++ [selector], p.2.properties⟩ : MqDetail))
          else p) }
    | none => st
  let st2 := { st1 with selectors := st1.selectors ++ [selector] }
  let st3 :=
    if st2.selectorProperties.any (fun p => p.1 = selector) then st2
    else { st2 with
      selectorProperties := st2.selectorProperties ++ [(selector, [])] }
  (getRuleDeclarations content).foldl (processDeclaration selector parentMedia)
    st3

/-- `process_rule_block` (with `process_media_rule` inlined at the
media branch) of `parser.py`. -/
def processRuleBlock :
    Nat → Option String → RbState → List CNode → RbState
  | 0, _, st, _ => st
  | _, _, st, [] => st
  | fuel + 1, parentMedia, st, n :: rest =>
    match n with
    | CNode.qrule pre content =>
      processRuleBlock fuel parentMedia
        (processQualifiedRule parentMedia st pre content) rest
    | CNode.atRule kw pre block =>
      if lowerChars kw = "media".toList then
        match block with
        | some raw =>
          if raw.isEmpty then processRuleBlock fuel parentMedia st rest
          else
            let mediaQuery := (getSelectorText pre).asString
            let st1 := { st with
              mediaQueryList := st.mediaQueryList ++ [mediaQuery] }
            let st2 := processRuleBlock fuel (some mediaQuery) st1
              (parseStylesheetChars (closeBlocks raw))
            processRuleBlock fuel parentMedia st2 rest
        | none => processRuleBlock fuel parentMedia st rest
      else processRuleBlock fuel parentMedia st rest
    | _ => processRuleBlock fuel parentMedia st rest

/-- The result record of `analyze_stylesheet`. -/
structure Analysis where
  selectors : List String
  selectorsCount : Nat
  uniqueSelectors : Nat
  propertiesCount : Nat
  uniqueProperties : Nat
  mostUsedProperties : List (String × Nat)
  colorsUsed : Nat
  colors : List String
  fontsUsed : Nat
  fonts : List String
  mediaQueriesCount : Nat
  mediaQueries : List String
  mediaQueryDetails : List (String × MqDetail)
  commentsCount : Nat
  comments : List String
  fileSizeBytes : Nat
  selectorProperties : List (String × List (String × String))
  imports : List String
  importsCount : Nat
  importMediaQueries : List (String × String)
  deriving Repr, DecidableEq

/-- `analyze_stylesheet` of `parser.py`. -/
def analyzeStylesheet (css : String) : Except String Analysis :=
  let cs := css.toList
  if unbalancedBraces cs then
    Except.error "CSS syntax error: Unbalanced braces"
  else
    let allComments := extractComments css
    let rules := parseStylesheetChars cs
    if hasParseError rules then
      Except.error "Failed to parse CSS: CSS parse error"
    else
      let (imports, importMediaQueries) := extractImports rules
      let st := processRuleBlock (cs.length + 1) none ⟨[], [], [], [], [], [], []⟩
        rules
      Except.ok
        { selectors := st.selectors
          selectorsCount := st.selectors.length
          uniqueSelectors := (dedupKeepFirst [] st.selectors).length
          propertiesCount := (st.properties.map (fun p => p.2)).sum
          uniqueProperties := st.properties.length
          mostUsedProperties :=
            (sortStable (fun a b => decide (b.2 ≤ a.2)) st.properties).take 10
          colorsUsed := (dedupKeepFirst [] st.colors).length
          colors := dedupKeepFirst [] st.colors
          fontsUsed := (dedupKeepFirst [] st.fonts).length
          fonts := dedupKeepFirst [] st.fonts
          mediaQueriesCount := st.mediaQueryList.length
          mediaQueries := st.mediaQueryList
          mediaQueryDetails := st.mediaQueryDetails
          commentsCount := allComments.length
          comments := allComments
          fileSizeBytes := css.utf8ByteSize
          selectorProperties := st.selectorProperties
          imports := imports
          importsCount := imports.length
          importMediaQueries := importMediaQueries }

/-! ## Definitions used to state the claims -/

/-- The last declaration with the given name, as the spec's override law
describes the survivor of a dedup pass. -/
def lastDeclOf (name : List Char) : List DItem → Option DItem
  | [] => none
  | it :: rest =>
    match lastDeclOf name rest with
    | some d => some d
    | none =>
      match it with
      | DItem.decl nm v i => if nm = name then some (DItem.decl nm v i) else none
      | _ => none

/-- The animation names defined by keyframes at-rules (standard or
vendor-prefixed keyword), in source order with quotes stripped. -/
def kfNamesOf (rules : List CNode) : List String :=
  rules.filterMap (fun n =>
    match n with
    | CNode.atRule kw pre _ =>
      if keyframesKeywords.any (fun k => k.toList = lowerChars kw) then
        some (stripQuotes (getSelectorText pre)).asString
      else none
    | _ => none)

/-- Is an item a media at-rule with the given condition text? -/
def isMediaWithCond (cond : List Char) (n : CNode) : Bool :=
  match n with
  | CNode.atRule kw pre _ =>
    lowerChars kw = "media".toList && getSelectorText pre = cond
  | _ => false

/-! ## Claim theorems -/

/-! ### Shared helper lemmas -/

theorem updAssoc_keys {κ β : Type} [DecidableEq κ] (m : List (κ × β)) (k : κ)
    (v : β) :
    (updAssoc m k v).map (fun p => p.1) =
      if m.any (fun p => p.1 = k) then m.map (fun p => p.1)
      else m.map (fun p => p.1) ++ [k] := by
  unfold updAssoc
  split
  · have hfst : ∀ p : κ × β, (if p.1 = k then (p.1, v) else p).1 = p.1 := by
      intro p; split <;> rfl
    simp [List.map_map, Function.comp, hfst]
  · simp

theorem dedupKeepFirst_congr {α : Type} [DecidableEq α] :
    ∀ (l : List α) (s₁ s₂ : List α), (∀ x, x ∈ s₁ ↔ x ∈ s₂) →
      dedupKeepFirst s₁ l = dedupKeepFirst s₂ l := by
  intro l
  induction l with
  | nil => intro s₁ s₂ _; rfl
  | cons x rest ih =>
    intro s₁ s₂ h
    simp only [dedupKeepFirst]
    by_cases hx : x ∈ s₁
    · rw [if_pos hx, if_pos ((h x).mp hx)]
      exact ih s₁ s₂ h
    · rw [if_neg hx, if_neg (fun hc => hx ((h x).mpr hc))]
      have : ∀ y, y ∈ x :: s₁ ↔ y ∈ x :: s₂ := by
        intro y; simp [h y]
      rw [ih (x :: s₁) (x :: s₂) this]

theorem animFirstPass_keys_aux :
    ∀ (rules : List CNode) (acc anims :
        List (String × List (String × List (String × String)))),
      rules.foldlM animStep acc = Except.ok anims →
      anims.map (fun p => p.1) =
        acc.map (fun p => p.1) ++
          dedupKeepFirst (acc.map (fun p => p.1)) (kfNamesOf rules) := by
  intro rules
  induction rules with
  | nil =>
    intro acc anims h
    simp only [List.foldlM] at h
    cases h
    simp [kfNamesOf, dedupKeepFirst]
  | cons n rest ih =>
    intro acc anims h
    rw [List.foldlM_cons] at h
    cases hs : animStep acc n with
    | error e => rw [hs] at h; exact absurd h (by simp [Bind.bind, Except.bind])
    | ok acc' =>
      rw [hs] at h
      have hrest : rest.foldlM animStep acc' = Except.ok anims := by
        simpa [Bind.bind, Except.bind] using h
      have hkeys := ih acc' anims hrest
      have skip :
          acc' = acc →
          kfNamesOf (n :: rest) = kfNamesOf rest →
          anims.map (fun p => p.1) =
            acc.map (fun p => p.1) ++
              dedupKeepFirst (acc.map (fun p => p.1)) (kfNamesOf (n :: rest)) := by
        intro he hn
        rw [hn, ← he]
        exact hkeys
      cases n with
      | qrule pre content =>
        exact skip (by simpa [animStep] using hs.symm) (by simp [kfNamesOf])
      | comment t =>
        exact skip (by simpa [animStep] using hs.symm) (by simp [kfNamesOf])
      | wsp t =>
        exact skip (by simpa [animStep] using hs.symm) (by simp [kfNamesOf])
      | errNode =>
        exact skip (by simpa [animStep] using hs.symm) (by simp [kfNamesOf])
      | atRule kw pre block =>
        by_cases hkf : keyframesKeywords.any (fun k => k.toList = lowerChars kw)
        · have hupd : ∃ payload,
              acc' = updAssoc acc
                (stripQuotes (getSelectorText pre)).asString payload := by
            simp only [animStep] at hs
            rw [if_pos hkf] at hs
            split at hs
            · split at hs
              · injection hs with hs2
                exact ⟨[], hs2.symm⟩
              · split at hs
                · exact Except.noConfusion hs
                · injection hs with hs2
                  exact ⟨_, hs2.symm⟩
            · injection hs with hs2
              exact ⟨[], hs2.symm⟩
          obtain ⟨payload, hacc'⟩ := hupd
          set aname := (stripQuotes (getSelectorText pre)).asString with hname
          have hnames : kfNamesOf (CNode.atRule kw pre block :: rest) =
              aname :: kfNamesOf rest := by
            have hkf2 : ∃ x ∈ keyframesKeywords, x.data = lowerChars kw := by
              simpa using hkf
            simp [kfNamesOf, hkf2]
          rw [hnames, hkeys, hacc', updAssoc_keys]
          by_cases hmem : aname ∈ acc.map (fun p => p.1)
          · have hany : acc.any (fun p => p.1 = aname) = true := by
              simp only [List.any_eq_true]
              simp only [List.mem_map] at hmem
              obtain ⟨q, hq, hq2⟩ := hmem
              exact ⟨q, hq, by simp [hq2]⟩
            rw [if_pos hany]
            simp only [dedupKeepFirst]
            rw [if_pos hmem]
          · have hany : ¬ acc.any (fun p => p.1 = aname) = true := by
              simp only [List.any_eq_true]
              intro ⟨q, hq, hq2⟩
              exact hmem (List.mem_map.mpr ⟨q, hq, by simpa using hq2⟩)
            rw [if_neg hany]
            simp only [dedupKeepFirst]
            rw [if_neg hmem, List.append_assoc]
            simp only [List.singleton_append]
            congr 1
            congr 1
            apply dedupKeepFirst_congr
            intro y
            simp [List.mem_append, List.mem_cons, or_comm]
        · have he : acc' = acc := by
            simp only [animStep] at hs
            rw [if_neg hkf] at hs
            injection hs with hs2
            exact hs2.symm
          refine skip he ?_
          have hkf2 : ¬ ∃ x ∈ keyframesKeywords, x.data = lowerChars kw := by
            simpa using hkf
          simp [kfNamesOf, hkf2]

theorem getAssoc_cons {κ β : Type} [DecidableEq κ] (x : κ × β)
    (rest : List (κ × β)) (k : κ) :
    getAssoc (x :: rest) k =
      if x.1 = k then some x.2 else getAssoc rest k := by
  by_cases h : x.1 = k <;> simp [getAssoc, List.find?, h]

theorem updAssoc_cons_ne {κ β : Type} [DecidableEq κ] {x : κ × β} (k : κ)
    (v : β) (rest : List (κ × β)) (h : ¬ x.1 = k) :
    updAssoc (x :: rest) k v = x :: updAssoc rest k v := by
  by_cases hr : rest.any (fun p => p.1 = k)
  · have hc : (x :: rest).any (fun p => p.1 = k) = true := by
      simp only [List.any_cons, hr, Bool.or_true]
    unfold updAssoc
    rw [if_pos hc, if_pos hr]
    simp [h]
  · have hc : ¬ (x :: rest).any (fun p => p.1 = k) = true := by
      simp only [List.any_cons, Bool.or_eq_true, List.any_eq_true]
      push_neg
      constructor
      · simpa using h
      · intro q hq
        simp only [List.any_eq_true] at hr
        push_neg at hr
        simpa using hr q hq
    unfold updAssoc
    rw [if_neg hc, if_neg (by simpa [List.any_eq_true] using hr)]
    simp

theorem updAssoc_cons_eq {κ β : Type} [DecidableEq κ] {x : κ × β} (k : κ)
    (v : β) (rest : List (κ × β)) (h : x.1 = k) :
    updAssoc (x :: rest) k v =
      (x.1, v) :: rest.map (fun p => if p.1 = k then (p.1, v) else p) := by
  have hc : (x :: rest).any (fun p => p.1 = k) = true := by
    simp [List.any_cons, h]
  unfold updAssoc
  rw [if_pos hc]
  simp [h]

theorem getAssoc_mapUpd_ne {κ β : Type} [DecidableEq κ] (k k' : κ) (v : β)
    (hne : ¬ k' = k) :
    ∀ rest : List (κ × β),
      getAssoc (rest.map (fun p => if p.1 = k then (p.1, v) else p)) k' =
        getAssoc rest k' := by
  intro rest
  induction rest with
  | nil => rfl
  | cons x r ih =>
    rw [List.map_cons, getAssoc_cons, getAssoc_cons]
    by_cases hx : x.1 = k
    · rw [if_pos hx]
      have hk : ¬ x.1 = k' := fun hc => hne (hc ▸ hx)
      rw [if_neg hk, if_neg hk]
      exact ih
    · rw [if_neg hx]
      by_cases hx' : x.1 = k'
      · rw [if_pos hx', if_pos hx']
      · rw [if_neg hx', if_neg hx']
        exact ih

theorem getAssoc_updAssoc_self {κ β : Type} [DecidableEq κ] :
    ∀ (m : List (κ × β)) (k : κ) (v : β),
      getAssoc (updAssoc m k v) k = some v := by
  intro m k v
  induction m with
  | nil => simp [updAssoc, getAssoc, List.find?]
  | cons x rest ih =>
    by_cases hx : x.1 = k
    · rw [updAssoc_cons_eq k v rest hx, getAssoc_cons]
      simp [hx]
    · rw [updAssoc_cons_ne k v rest hx, getAssoc_cons, if_neg hx]
      exact ih

theorem getAssoc_updAssoc_ne {κ β : Type} [DecidableEq κ] :
    ∀ (m : List (κ × β)) (k k' : κ) (v : β), ¬ k' = k →
      getAssoc (updAssoc m k v) k' = getAssoc m k' := by
  intro m k k' v hne
  induction m with
  | nil =>
    have : ¬ k = k' := fun hc => hne hc.symm
    simp [updAssoc, getAssoc, List.find?, this]
  | cons x rest ih =>
    by_cases hx : x.1 = k
    · rw [updAssoc_cons_eq k v rest hx, getAssoc_cons, getAssoc_cons]
      have hxk' : ¬ x.1 = k' := fun hc => hne (by rw [← hc, hx])
      rw [if_neg (by simpa [hx] using hxk'), if_neg hxk']
      exact getAssoc_mapUpd_ne k k' v hne rest
    · rw [updAssoc_cons_ne k v rest hx, getAssoc_cons, getAssoc_cons]
      by_cases hx' : x.1 = k'
      · rw [if_pos hx', if_pos hx']
      · rw [if_neg hx', if_neg hx']
        exact ih

theorem lastDeclOf_shape :
    ∀ (items : List DItem) (name : List Char) (d : DItem),
      lastDeclOf name items = some d → ∃ v i, d = DItem.decl name v i := by
  intro items
  induction items with
  | nil => intro name d h; exact Option.noConfusion h
  | cons it rest ih =>
    intro name d h
    cases hl : lastDeclOf name rest with
    | some d' =>
      simp only [lastDeclOf, hl] at h
      injection h with h2
      exact h2 ▸ ih name d' hl
    | none =>
      cases it with
      | decl nm v i =>
        simp only [lastDeclOf, hl] at h
        by_cases hnm : nm = name
        · rw [if_pos hnm] at h
          injection h with h2
          exact ⟨v, i, by rw [← h2, hnm]⟩
        · rw [if_neg hnm] at h
          exact Option.noConfusion h
      | comment t =>
        simp only [lastDeclOf, hl] at h
        exact Option.noConfusion h
      | wsp t =>
        simp only [lastDeclOf, hl] at h
        exact Option.noConfusion h
      | errItem =>
        simp only [lastDeclOf, hl] at h
        exact Option.noConfusion h

theorem foldDeclUpd_get {κ β : Type} [DecidableEq κ] (key : List Char → κ)
    (hinj : ∀ a b, key a = key b → a = b)
    (val : List Char → List Char → Bool → β) :
    ∀ (items : List DItem) (m : List (κ × β)) (name : List Char),
      getAssoc (items.foldl (fun acc it =>
        match it with
        | DItem.decl nm v i => updAssoc acc (key nm) (val nm v i)
        | _ => acc) m) (key name) =
      (match lastDeclOf name items with
       | some (DItem.decl nm v i) => some (val nm v i)
       | _ => getAssoc m (key name)) := by
  intro items
  induction items with
  | nil => intro m name; rfl
  | cons it rest ih =>
    intro m name
    rw [List.foldl_cons]
    cases it with
    | decl nm v i =>
      rw [ih]
      cases hl : lastDeclOf name rest with
      | some d =>
        obtain ⟨v', i', hd⟩ := lastDeclOf_shape rest name d hl
        subst hd
        simp only [lastDeclOf, hl]
      | none =>
        by_cases hnm : nm = name
        · subst hnm
          rw [getAssoc_updAssoc_self]
          simp [lastDeclOf, hl]
        · rw [getAssoc_updAssoc_ne _ _ _ _
            (fun hc => hnm (hinj name nm hc).symm)]
          simp only [lastDeclOf, hl, if_neg hnm]
    | comment t =>
      rw [ih]
      cases hl : lastDeclOf name rest with
      | some d => simp only [lastDeclOf, hl]
      | none => simp only [lastDeclOf, hl]
    | wsp t =>
      rw [ih]
      cases hl : lastDeclOf name rest with
      | some d => simp only [lastDeclOf, hl]
      | none => simp only [lastDeclOf, hl]
    | errItem =>
      rw [ih]
      cases hl : lastDeclOf name rest with
      | some d => simp only [lastDeclOf, hl]
      | none => simp only [lastDeclOf, hl]

theorem updAssoc_nodupKeys {κ β : Type} [DecidableEq κ]
    (m : List (κ × β)) (k : κ) (v : β)
    (h : (m.map (fun p => p.1)).Nodup) :
    ((updAssoc m k v).map (fun p => p.1)).Nodup := by
  rw [updAssoc_keys]
  split
  · exact h
  case isFalse hany =>
    have hk : k ∉ m.map (fun p => p.1) := by
      intro hc
      apply hany
      simp only [List.mem_map] at hc
      obtain ⟨q, hq, hq2⟩ := hc
      simp only [List.any_eq_true]
      exact ⟨q, hq, by simp [hq2]⟩
    simp [List.nodup_append, h, hk]

theorem foldDeclUpd_nodupKeys {κ β : Type} [DecidableEq κ]
    (key : List Char → κ) (val : List Char → List Char → Bool → β) :
    ∀ (items : List DItem) (m : List (κ × β)),
      (m.map (fun p => p.1)).Nodup →
      ((items.foldl (fun acc it =>
        match it with
        | DItem.decl nm v i => updAssoc acc (key nm) (val nm v i)
        | _ => acc) m).map (fun p => p.1)).Nodup := by
  intro items
  induction items with
  | nil => intro m h; exact h
  | cons it rest ih =>
    intro m h
    rw [List.foldl_cons]
    cases it with
    | decl nm v i => exact ih _ (updAssoc_nodupKeys m (key nm) (val nm v i) h)
    | comment t => exact ih m h
    | wsp t => exact ih m h
    | errItem => exact ih m h

theorem assoc_filter_eq {κ β : Type} [DecidableEq κ] :
    ∀ (l : List (κ × β)), (l.map (fun p => p.1)).Nodup → ∀ k,
      l.filter (fun p => p.1 = k) =
        (match getAssoc l k with
         | some v => [(k, v)]
         | none => []) := by
  intro l
  induction l with
  | nil => intro _ k; rfl
  | cons x rest ih =>
    intro hnd k
    rw [List.map_cons, List.nodup_cons] at hnd
    rw [getAssoc_cons]
    by_cases hx : x.1 = k
    · rw [if_pos hx]
      have hrest : rest.filter (fun p => p.1 = k) = [] := by
        rw [List.filter_eq_nil_iff]
        intro p hp hc
        apply hnd.1
        rw [hx]
        simp only [decide_eq_true_eq] at hc
        exact hc ▸ List.mem_map.mpr ⟨p, hp, rfl⟩
      rw [List.filter_cons_of_pos (by simpa using hx), hrest]
      have hxe : x = (k, x.2) := by
        rw [← hx]
      show [x] = [(k, x.2)]
      rw [hxe]
    · rw [if_neg hx, List.filter_cons_of_neg (by simpa using hx)]
      exact ih hnd.2 k

theorem insStable_perm {α : Type} (le : α → α → Bool) (a : α) :
    ∀ l : List α, List.Perm (insStable le a l) (a :: l) := by
  intro l
  induction l with
  | nil => exact List.Perm.refl _
  | cons b rest ih =>
    simp only [insStable]
    split
    · exact (ih.cons b).trans (List.Perm.swap a b rest)
    · exact List.Perm.refl _

theorem sortStable_perm {α : Type} (le : α → α → Bool) :
    ∀ l : List α, List.Perm (sortStable le l) l := by
  intro l
  induction l with
  | nil => exact List.Perm.refl _
  | cons a rest ih =>
    exact (insStable_perm le a (sortStable le rest)).trans (ih.cons a)

/-- C7 (confirmed): `extract_animations` returns exactly the animations
defined by keyframes at-rules (quotes stripped, vendor spellings
included) — names that are only referenced never appear — and each
entry's `used_by` list comes from the usage map of the qualified rules
referencing the name (possibly empty); the spec's `spin` example
evaluates to exactly the claimed mapping. -/
theorem animation_extraction :
    extractAnimations
        "@keyframes spin\x7b0%\x7bopacity:0\x7d100%\x7bopacity:1\x7d\x7d.x\x7banimation: spin 2s\x7d" =
      Except.ok [("spin",
        (⟨[("0%", [("opacity", "0")]), ("100%", [("opacity", "1")])],
          [".x"]⟩ : AnimEntry))] ∧
    ∀ css m, extractAnimations css = Except.ok m →
      m.map (fun p => p.1) = dedupKeepFirst [] (kfNamesOf (parseStylesheet css)) ∧
      ∀ usage, findAnimationUsage (parseStylesheet css) = Except.ok usage →
        ∀ name e, (name, e) ∈ m → e.usedBy = (getAssoc usage name).getD [] := by
  refine ⟨by rfl, ?_⟩
  intro css m h
  unfold extractAnimations at h
  dsimp only at h
  split at h
  · exact Except.noConfusion h
  · split at h
    · exact Except.noConfusion h
    · cases ha : animFirstPass (parseStylesheetChars css.toList) with
      | error e =>
        rw [ha] at h
        simp [Bind.bind, Except.bind] at h
      | ok anims =>
        rw [ha] at h
        cases hu : findAnimationUsage (parseStylesheetChars css.toList) with
        | error e =>
          rw [hu] at h
          simp [Bind.bind, Except.bind] at h
        | ok usage =>
          rw [hu] at h
          have hm : anims.map (fun p =>
              (p.1, (⟨p.2, (getAssoc usage p.1).getD []⟩ : AnimEntry))) = m := by
            simpa [Bind.bind, Except.bind] using h
          constructor
          · have hkeys := animFirstPass_keys_aux _ [] anims ha
            rw [← hm]
            simp only [List.map_map, parseStylesheet]
            simpa using hkeys
          · intro usage' hu' name e hmem
            have husage : usage' = usage := by
              rw [parseStylesheet, hu] at hu'
              injection hu' with h2
              exact h2.symm
            rw [← hm] at hmem
            simp only [List.mem_map] at hmem
            obtain ⟨p, _, hp2⟩ := hmem
            have h1 : p.1 = name := congrArg Prod.fst hp2
            have h2 : (⟨p.2, (getAssoc usage p.1).getD []⟩ : AnimEntry) = e :=
              congrArg Prod.snd hp2
            rw [husage, ← h2, ← h1]

/-- C4 (confirmed): within one rule, the dedup of
`remove_duplicates`' second pass keeps exactly one declaration per name,
namely the last occurrence in original order (its value and `important`
flag included), and `extract_media_queries` records for each property
name the value of its last occurrence; on `color: red; color: blue` only
`color: blue` survives. -/
theorem dedup_last_occurrence_wins :
    (∀ (items : List DItem) (name : List Char),
      (dedupSortDecls items).1.filter (fun p => p.1 = name) =
        (match lastDeclOf name items with
         | some d => [(name, d)]
         | none => [])) ∧
    (∀ (items : List DItem) (name : List Char),
      getAssoc (propsOf items) name.asString =
        (match lastDeclOf name items with
         | some (DItem.decl _ v _) => some ((declValue v).asString)
         | _ => none)) ∧
    removeDuplicates ".a\x7bcolor:red;color:blue\x7d" =
      some ".a \x7b\n    color: blue;\n\x7d\n\n" := by
  refine ⟨?_, ?_, by rfl⟩
  · intro items name
    have hget : getAssoc (items.foldl (fun acc it =>
        match it with
        | DItem.decl nm v i => updAssoc acc nm (DItem.decl nm v i)
        | _ => acc) ([] : List (List Char × DItem))) name =
        (match lastDeclOf name items with
         | some (DItem.decl nm v i) => some (DItem.decl nm v i)
         | _ => none) :=
      foldDeclUpd_get (fun x => x) (fun _ _ h => h)
        (fun nm v i => DItem.decl nm v i) items [] name
    have hnd := foldDeclUpd_nodupKeys (fun x => x)
      (fun nm v i => DItem.decl nm v i) items
      ([] : List (List Char × DItem)) (by simp)
    have hfil := assoc_filter_eq _ hnd name
    have hperm :=
      (sortStable_perm (fun a b : List Char × DItem => charListLe a.1 b.1)
        (items.foldl (fun acc it =>
          match it with
          | DItem.decl nm v i => updAssoc acc nm (DItem.decl nm v i)
          | _ => acc) ([] : List (List Char × DItem)))).filter
        (fun p => p.1 = name)
    cases hl : lastDeclOf name items with
    | some d =>
      obtain ⟨v, i, hd⟩ := lastDeclOf_shape items name d hl
      subst hd
      simp only [hl] at hget
      simp only [hget] at hfil
      rw [hfil] at hperm
      exact List.perm_singleton.mp hperm
    | none =>
      simp only [hl] at hget
      simp only [hget] at hfil
      rw [hfil] at hperm
      exact hperm.eq_nil
  · intro items name
    have hget : getAssoc (propsOf items) name.asString =
        (match lastDeclOf name items with
         | some (DItem.decl _ v _) => some ((declValue v).asString)
         | _ => none) :=
      foldDeclUpd_get (fun nm => nm.asString)
        (fun _ _ h => congrArg String.data h)
        (fun _ v _ => (declValue v).asString) items [] name
    exact hget

theorem addPropGo_factor (sel p v : List Char) (imp : Bool) :
    ∀ (nodes : List CNode) (found : Bool),
      addPropGo sel p v imp nodes found =
        (nodes.map (fun n =>
          match n with
          | CNode.qrule pre content =>
            if getSelectorText pre = sel then
              fmtModRule (getSelectorText pre) (serializeDecls (
                if (replaceFirstDecl p (newDecl p v imp)
                    (getRuleDeclarations content)).2 then
                  (replaceFirstDecl p (newDecl p v imp)
                    (getRuleDeclarations content)).1
                else
                  appendNewDecl (getRuleDeclarations content)
                    (newDecl p v imp)))
            else
              fmtModRule (getSelectorText pre)
                (serializeDecls (getRuleDeclarations content))
          | other => serializeCNode other)).flatten ++
        (if found || nodes.any (fun n =>
            match n with
            | CNode.qrule pre _ => getSelectorText pre = sel
            | _ => false) then []
         else newRuleText sel p v imp) := by
  intro nodes
  induction nodes with
  | nil =>
    intro found
    cases found <;> simp [addPropGo]
  | cons n rest ih =>
    intro found
    cases n with
    | qrule pre content =>
      by_cases hsel : getSelectorText pre = sel
      · simp only [addPropGo, if_pos hsel, ih true, List.map_cons,
          List.flatten_cons]
        simp [hsel, List.append_assoc]
      · simp only [addPropGo, if_neg hsel, List.map_cons, List.flatten_cons]
        rw [ih found]
        simp [hsel, List.append_assoc]
    | atRule kw pre block =>
      simp only [addPropGo, List.map_cons, List.flatten_cons]
      rw [ih found]
      simp [List.append_assoc]
    | comment t =>
      simp only [addPropGo, List.map_cons, List.flatten_cons]
      rw [ih found]
      simp [List.append_assoc]
    | wsp t =>
      simp only [addPropGo, List.map_cons, List.flatten_cons]
      rw [ih found]
      simp [List.append_assoc]
    | errNode =>
      simp only [addPropGo, List.map_cons, List.flatten_cons]
      rw [ih found]
      simp [List.append_assoc]

/-- C1 counterexample: with two rules sharing selector `.a`,
`add_property_to_selector` modifies both — the second rule's
`color: blue` declaration does not survive. -/
theorem c1_counterexample :
    addPropertyToSelector ".a\x7bcolor:red\x7d.a\x7bcolor:blue\x7d" ".a"
        "color" "green" false =
      ".a \x7b\n    color: green;\n\x7d\n.a \x7b\n    color: green;\n\x7d" ∧
    isSubstring "blue".toList
      (addPropertyToSelector ".a\x7bcolor:red\x7d.a\x7bcolor:blue\x7d" ".a"
        "color" "green" false).toList = false := by
  exact ⟨by rfl, by rfl⟩

/-- C1 (amended): `add_property_to_selector` rewrites every qualified
rule whose selector text equals the given selector — replacing the first
declaration with the property name, or appending the declaration — while
rules with other selectors are re-emitted with their declaration lists
unchanged, and a brand-new rule is appended exactly when no rule in the
whole stylesheet matched the selector. -/
theorem add_property_rewrites_every_match :
    ∀ (css sel p v : String) (imp : Bool),
      addPropertyToSelector css sel p v imp =
        (pyTrim (
          ((parseStylesheet css).map (fun n =>
            match n with
            | CNode.qrule pre content =>
              if getSelectorText pre = sel.toList then
                fmtModRule (getSelectorText pre) (serializeDecls (
                  if (replaceFirstDecl p.toList (newDecl p.toList v.toList imp)
                      (getRuleDeclarations content)).2 then
                    (replaceFirstDecl p.toList (newDecl p.toList v.toList imp)
                      (getRuleDeclarations content)).1
                  else
                    appendNewDecl (getRuleDeclarations content)
                      (newDecl p.toList v.toList imp)))
              else
                fmtModRule (getSelectorText pre)
                  (serializeDecls (getRuleDeclarations content))
            | other => serializeCNode other)).flatten ++
          (if (parseStylesheet css).any (fun n =>
              match n with
              | CNode.qrule pre _ => getSelectorText pre = sel.toList
              | _ => false) then []
           else newRuleText sel.toList p.toList v.toList imp))).asString := by
  intro css sel p v imp
  unfold addPropertyToSelector
  rw [addPropGo_factor]
  simp

theorem rdFirstPass_preserves :
    ∀ (rules : List CNode) (out : List (Option RNode))
      (selMap mediaMap : List (List Char × Nat)) (out' : List (Option RNode))
      (j : Nat),
      rdFirstPass rules out selMap mediaMap = some out' →
      j < out.length →
      (∀ e ∈ mediaMap, e.2 = j →
        (rules.filter (isMediaWithCond e.1)).length = 0) →
      out'.get? j = out.get? j := by
  intro rules
  induction rules with
  | nil =>
    intro out selMap mediaMap out' j h _ _
    injection h with h2
    rw [h2]
  | cons n rest ih =>
    intro out selMap mediaMap out' j h hj hmm2
    have hgrow : ∀ (x : Option RNode),
        (out ++ [x]).get? j = out.get? j := fun x => List.get?_append hj
    cases n with
    | qrule pre content =>
      simp only [rdFirstPass] at h
      have hstep : ∀ e ∈ mediaMap, e.2 = j →
          (rest.filter (isMediaWithCond e.1)).length = 0 := by
        intro e he hej
        have := hmm2 e he hej
        by_cases hh : isMediaWithCond e.1 (CNode.qrule pre content)
        · rw [List.filter_cons_of_pos hh] at this
          simp at this
        · rwa [List.filter_cons_of_neg hh] at this
      cases hf : (selMap.find? fun ps => ps.1 = getSelectorText pre) with
      | some _ =>
        simp only [hf] at h
        rw [ih _ _ _ _ j h (by simpa using Nat.lt_succ_of_lt hj) hstep]
        exact hgrow none
      | none =>
        simp only [hf] at h
        rw [ih _ _ _ _ j h (by simpa using Nat.lt_succ_of_lt hj) hstep]
        exact hgrow _
    | atRule kw pre block =>
      simp only [rdFirstPass] at h
      by_cases hmed : lowerChars kw = "media".toList
      · rw [if_pos hmed] at h
        have hstep : ∀ e ∈ mediaMap, e.2 = j →
            (rest.filter (isMediaWithCond e.1)).length = 0 := by
          intro e he hej
          have := hmm2 e he hej
          by_cases hh : isMediaWithCond e.1 (CNode.atRule kw pre block)
          · rw [List.filter_cons_of_pos hh] at this
            simp at this
          · rwa [List.filter_cons_of_neg hh] at this
        cases hf : (mediaMap.find? fun ps => ps.1 = getSelectorText pre) with
        | some pj =>
          simp only [hf] at h
          -- the merge path: pj.2 cannot be j, since the head is a media
          -- at-rule with pj.1's condition
          have hpj : pj.1 = getSelectorText pre := by
            have := List.find?_some hf
            simpa using this
          have hmem : pj ∈ mediaMap := List.mem_of_find?_eq_some hf
          have hne : pj.2 ≠ j := by
            intro hc
            have := hmm2 pj hmem hc
            have hhead : isMediaWithCond pj.1 (CNode.atRule kw pre block) := by
              simp [isMediaWithCond, hmed, hpj]
            rw [List.filter_cons_of_pos hhead] at this
            simp at this
          cases hout : out.get? pj.2 with
          | none => rw [hout] at h; exact Option.noConfusion h
          | some oslot =>
            cases oslot with
            | none => rw [hout] at h; exact Option.noConfusion h
            | some existing =>
              rw [hout] at h
              cases existing with
              | node en =>
                cases en with
                | atRule ekw epre eblock =>
                  cases eblock with
                  | none =>
                    cases block with
                    | none => exact Option.noConfusion h
                    | some newRaw => exact Option.noConfusion h
                  | some eraw =>
                    cases block with
                    | none => exact Option.noConfusion h
                    | some newRaw =>
                      rw [ih _ _ _ _ j h
                        (by simp [Nat.lt_succ_of_lt, Nat.lt_succ_of_lt hj,
                          List.length_set]) hstep]
                      rw [List.get?_append (by simpa [List.length_set] using hj)]
                      exact List.get?_set_ne _ _ hne
                | qrule a b =>
                  cases block with
                  | none => exact Option.noConfusion h
                  | some newRaw => exact Option.noConfusion h
                | comment t =>
                  cases block with
                  | none => exact Option.noConfusion h
                  | some newRaw => exact Option.noConfusion h
                | wsp t =>
                  cases block with
                  | none => exact Option.noConfusion h
                  | some newRaw => exact Option.noConfusion h
                | errNode =>
                  cases block with
                  | none => exact Option.noConfusion h
                  | some newRaw => exact Option.noConfusion h
              | mediaMerged mkw mpre mrules =>
                cases block with
                | none => exact Option.noConfusion h
                | some newRaw =>
                  rw [ih _ _ _ _ j h
                    (by simp [Nat.lt_succ_of_lt hj, List.length_set]) hstep]
                  rw [List.get?_append (by simpa [List.length_set] using hj)]
                  exact List.get?_set_ne _ _ hne
        | none =>
          simp only [hf] at h
          have hstep2 : ∀ e ∈ mediaMap ++ [(getSelectorText pre, out.length)],
              e.2 = j → (rest.filter (isMediaWithCond e.1)).length = 0 := by
            intro e he hej
            rcases List.mem_append.mp he with hold | hnew
            · exact hstep e hold hej
            · simp only [List.mem_singleton] at hnew
              subst hnew
              simp only at hej
              omega
          rw [ih _ _ _ _ j h (by simpa using Nat.lt_succ_of_lt hj) hstep2]
          exact hgrow _
      · rw [if_neg hmed] at h
        have hstep : ∀ e ∈ mediaMap, e.2 = j →
            (rest.filter (isMediaWithCond e.1)).length = 0 := by
          intro e he hej
          have := hmm2 e he hej
          by_cases hh : isMediaWithCond e.1 (CNode.atRule kw pre block)
          · rw [List.filter_cons_of_pos hh] at this
            simp at this
          · rwa [List.filter_cons_of_neg hh] at this
        rw [ih _ _ _ _ j h (by simpa using Nat.lt_succ_of_lt hj) hstep]
        exact hgrow _
    | comment t =>
      simp only [rdFirstPass] at h
      have hstep : ∀ e ∈ mediaMap, e.2 = j →
          (rest.filter (isMediaWithCond e.1)).length = 0 := by
        intro e he hej
        have := hmm2 e he hej
        rwa [List.filter_cons_of_neg (by simp [isMediaWithCond])] at this
      rw [ih _ _ _ _ j h (by simpa using Nat.lt_succ_of_lt hj) hstep]
      exact hgrow _
    | wsp t =>
      simp only [rdFirstPass] at h
      have hstep : ∀ e ∈ mediaMap, e.2 = j →
          (rest.filter (isMediaWithCond e.1)).length = 0 := by
        intro e he hej
        have := hmm2 e he hej
        rwa [List.filter_cons_of_neg (by simp [isMediaWithCond])] at this
      rw [ih _ _ _ _ j h (by simpa using Nat.lt_succ_of_lt hj) hstep]
      exact hgrow _
    | errNode =>
      simp only [rdFirstPass] at h
      have hstep : ∀ e ∈ mediaMap, e.2 = j →
          (rest.filter (isMediaWithCond e.1)).length = 0 := by
        intro e he hej
        have := hmm2 e he hej
        rwa [List.filter_cons_of_neg (by simp [isMediaWithCond])] at this
      rw [ih _ _ _ _ j h (by simpa using Nat.lt_succ_of_lt hj) hstep]
      exact hgrow _

theorem rdFirstPass_cons_shape :
    ∀ (n : CNode) (rest : List CNode) (out : List (Option RNode))
      (selMap mediaMap : List (List Char × Nat)) (out' : List (Option RNode)),
      rdFirstPass (n :: rest) out selMap mediaMap = some out' →
      ∃ out₂ selMap₂ mediaMap₂,
        rdFirstPass rest out₂ selMap₂ mediaMap₂ = some out' ∧
        out₂.length = out.length + 1 ∧
        (∀ e ∈ mediaMap₂, e ∈ mediaMap ∨
          (e.2 = out.length ∧ isMediaWithCond e.1 n = true)) := by
  intro n rest out selMap mediaMap out' h
  cases n with
  | qrule pre content =>
    simp only [rdFirstPass] at h
    cases hf : (selMap.find? fun ps => ps.1 = getSelectorText pre) with
    | some _ =>
      simp only [hf] at h
      exact ⟨_, _, _, h, by simp, fun e he => Or.inl he⟩
    | none =>
      simp only [hf] at h
      exact ⟨_, _, _, h, by simp, fun e he => Or.inl he⟩
  | atRule kw pre block =>
    simp only [rdFirstPass] at h
    by_cases hmed : lowerChars kw = "media".toList
    · rw [if_pos hmed] at h
      cases hf : (mediaMap.find? fun ps => ps.1 = getSelectorText pre) with
      | some pj =>
        simp only [hf] at h
        split at h
        · split at h
          · exact ⟨_, _, _, h, by simp [List.length_set],
              fun e he => Or.inl he⟩
          · exact Option.noConfusion h
        · exact Option.noConfusion h
      | none =>
        simp only [hf] at h
        refine ⟨_, _, _, h, by simp, ?_⟩
        intro e he
        rcases List.mem_append.mp he with hold | hnew
        · exact Or.inl hold
        · simp only [List.mem_singleton] at hnew
          subst hnew
          exact Or.inr ⟨rfl, by simp [isMediaWithCond, hmed]⟩
    · rw [if_neg hmed] at h
      exact ⟨_, _, _, h, by simp, fun e he => Or.inl he⟩
  | comment t =>
    simp only [rdFirstPass] at h
    exact ⟨_, _, _, h, by simp, fun e he => Or.inl he⟩
  | wsp t =>
    simp only [rdFirstPass] at h
    exact ⟨_, _, _, h, by simp, fun e he => Or.inl he⟩
  | errNode =>
    simp only [rdFirstPass] at h
    exact ⟨_, _, _, h, by simp, fun e he => Or.inl he⟩

theorem rdFirstPass_untouched :
    ∀ (rules : List CNode) (out : List (Option RNode))
      (selMap mediaMap : List (List Char × Nat)) (out' : List (Option RNode))
      (i : Nat) (kw pre raw : List Char),
      rdFirstPass rules out selMap mediaMap = some out' →
      rules.get? i = some (CNode.atRule kw pre (some raw)) →
      lowerChars kw = "media".toList →
      (rules.filter (isMediaWithCond (getSelectorText pre))).length = 1 →
      (∀ e ∈ mediaMap, ¬ e.1 = getSelectorText pre) →
      (∀ e ∈ mediaMap, e.2 < out.length) →
      out'.get? (out.length + i) =
        some (some (RNode.node (CNode.atRule kw pre (some raw)))) := by
  intro rules
  induction rules with
  | nil =>
    intro out selMap mediaMap out' i kw pre raw _ hget _ _ _ _
    exact Option.noConfusion hget
  | cons n rest ih =>
    intro out selMap mediaMap out' i kw pre raw h hget hmed hone hfresh hidx
    cases i with
    | zero =>
      simp only [List.get?] at hget
      injection hget with hn
      subst hn
      simp only [rdFirstPass] at h
      rw [if_pos hmed] at h
      have hf : (mediaMap.find? fun ps => ps.1 = getSelectorText pre) = none := by
        rw [List.find?_eq_none]
        intro e he
        simpa using hfresh e he
      simp only [hf] at h
      have hhead : isMediaWithCond (getSelectorText pre)
          (CNode.atRule kw pre (some raw)) = true := by
        simp [isMediaWithCond, hmed]
      rw [List.filter_cons_of_pos hhead] at hone
      simp only [List.length_cons, Nat.add_eq_zero, Nat.succ_inj] at hone
      have hpres := rdFirstPass_preserves rest _ _ _ out' out.length h
        (by simp) ?_
      · rw [Nat.add_zero, hpres, List.get?_concat_length]
      · intro e he hej
        rcases List.mem_append.mp he with hold | hnew
        · exact absurd hej (Nat.ne_of_lt (hidx e hold))
        · simp only [List.mem_singleton] at hnew
          subst hnew
          exact hone
    | succ i' =>
      simp only [List.get?] at hget
      have hmemrest : CNode.atRule kw pre (some raw) ∈ rest :=
        List.get?_mem hget
      have hheadneg : ¬ isMediaWithCond (getSelectorText pre) n = true := by
        intro hc
        rw [List.filter_cons_of_pos hc] at hone
        have : CNode.atRule kw pre (some raw) ∈
            rest.filter (isMediaWithCond (getSelectorText pre)) := by
          rw [List.mem_filter]
          exact ⟨hmemrest, by simp [isMediaWithCond, hmed]⟩
        have hpos : 0 < (rest.filter
            (isMediaWithCond (getSelectorText pre))).length :=
          List.length_pos.mpr (fun hc2 => by simp [hc2] at this)
        simp only [List.length_cons] at hone
        omega
      have hone' : (rest.filter
          (isMediaWithCond (getSelectorText pre))).length = 1 := by
        rwa [List.filter_cons_of_neg hheadneg] at hone
      obtain ⟨out₂, selMap₂, mediaMap₂, h₂, hlen₂, hmm₂⟩ :=
        rdFirstPass_cons_shape n rest out selMap mediaMap out' h
      have := ih out₂ selMap₂ mediaMap₂ out' i' kw pre raw h₂ hget hmed hone'
        ?_ ?_
      · rw [hlen₂] at this
        rw [show out.length + (i' + 1) = out.length + 1 + i' from by omega]
        exact this
      · intro e he hc
        rcases hmm₂ e he with hold | hnew
        · exact hfresh e hold hc
        · exact hheadneg (hc ▸ hnew.2)
      · intro e he
        rcases hmm₂ e he with hold | hnew
        · rw [hlen₂]
          exact Nat.lt_succ_of_lt (hidx e hold)
        · rw [hlen₂, hnew.1]
          exact Nat.lt_succ_self _

theorem rdSecondPass_append :
    ∀ xs ys : List (Option RNode),
      rdSecondPass (xs ++ ys) =
        (rdSecondPass xs).bind fun a =>
          (rdSecondPass ys).map fun b => a ++ b := by
  intro xs ys
  induction xs with
  | nil =>
    simp only [List.nil_append, rdSecondPass]
    cases rdSecondPass ys <;> simp
  | cons x xs ih =>
    cases x with
    | none =>
      simp only [List.cons_append, rdSecondPass]
      exact ih
    | some r =>
      simp only [List.cons_append, rdSecondPass, List.append_eq]
      rw [ih]
      rcases hf : rdFragOf r with _ | f <;>
        rcases hx : rdSecondPass xs with _ | a <;>
          rcases hy : rdSecondPass ys with _ | b <;>
            simp [hf, hx, hy, Bind.bind, Option.bind, List.append_assoc]

/-- C5 (confirmed): a media at-rule whose condition text appears exactly
once in the stylesheet is emitted by `remove_duplicates` with its
qualified rules dropped: the second pass iterates its raw token content,
in which no item ever has type `qualified-rule` (only comment tokens
produce output, via `rdRawMediaItem`); only a media block whose
condition was duplicated — and whose content therefore became a parsed
rule list — retains its rules, as the concrete duplicated example
shows. -/
theorem media_single_occurrence_drops_rules :
    (∀ (css : String) (i : Nat) (kw pre raw : List Char)
        (out : List (Option RNode)),
      (parseStylesheet css).get? i = some (CNode.atRule kw pre (some raw)) →
      lowerChars kw = "media".toList →
      ((parseStylesheet css).filter
        (isMediaWithCond (getSelectorText pre))).length = 1 →
      rdFirstPass (parseStylesheet css) [] [] [] = some out →
      out.get? i = some (some (RNode.node (CNode.atRule kw pre (some raw)))) ∧
      rdSecondPass out =
        (rdSecondPass (out.take i)).bind (fun a =>
          (rdSecondPass (out.drop (i + 1))).map (fun b =>
            a ++ ("@media ".toList ++ getSelectorText pre ++ " \x7b\n".toList ++
              (tokensOf (raw.length + 1) raw).flatMap rdRawMediaItem ++
              "\x7d\n\n".toList) ++ b))) ∧
    (∀ t, rdRawMediaItem t =
      (match t with
       | Tok.tcomment txt => "    /* ".toList ++ txt ++ " */\n".toList
       | _ => [])) ∧
    removeDuplicates
        "@media x\x7b.a\x7bcolor:red\x7d\x7d@media x\x7b.b\x7bcolor:blue\x7d\x7d" =
      some "@media x \x7b\n    .a \x7b\n        color: red;\n    \x7d\n\n    .b \x7b\n        color: blue;\n    \x7d\n\n\x7d\n\n" := by
  refine ⟨?_, fun t => rfl, by rfl⟩
  intro css i kw pre raw out hget hmed hone hfp
  have huntouched := rdFirstPass_untouched (parseStylesheet css) [] [] [] out
    i kw pre raw hfp hget hmed hone (by simp) (by simp)
  simp only [List.length_nil, Nat.zero_add] at huntouched
  refine ⟨huntouched, ?_⟩
  have hlt : i < out.length := by
    by_contra hc
    rw [List.get?_eq_none.mpr (Nat.le_of_not_lt hc)] at huntouched
    exact Option.noConfusion huntouched
  have hslot : out.drop i =
      some (RNode.node (CNode.atRule kw pre (some raw))) :: out.drop (i + 1) := by
    have hd := List.drop_eq_getElem_cons hlt
    rw [hd]
    have : out[i] = some (RNode.node (CNode.atRule kw pre (some raw))) := by
      have := List.getElem?_eq_getElem hlt
      rw [List.get?_eq_getElem?] at huntouched
      rw [this] at huntouched
      injection huntouched
    rw [this]
  have hsplit : out = out.take i ++
      (some (RNode.node (CNode.atRule kw pre (some raw))) ::
        out.drop (i + 1)) := by
    conv_lhs => rw [← List.take_append_drop i out]
    rw [hslot]
  conv_lhs => rw [hsplit]
  rw [rdSecondPass_append]
  have hfrag : rdFragOf (RNode.node (CNode.atRule kw pre (some raw))) =
      some ("@media ".toList ++ getSelectorText pre ++ " \x7b\n".toList ++
        (tokensOf (raw.length + 1) raw).flatMap rdRawMediaItem ++
        "\x7d\n\n".toList) := by
    simp only [rdFragOf]
    rw [if_pos hmed]
  have hstep : rdSecondPass
      (some (RNode.node (CNode.atRule kw pre (some raw))) ::
        out.drop (i + 1)) =
      (rdSecondPass (out.drop (i + 1))).map (fun b =>
        ("@media ".toList ++ getSelectorText pre ++ " \x7b\n".toList ++
          (tokensOf (raw.length + 1) raw).flatMap rdRawMediaItem ++
          "\x7d\n\n".toList) ++ b) := by
    simp only [rdSecondPass, hfrag]
    cases rdSecondPass (out.drop (i + 1)) <;>
      simp [Bind.bind, Option.bind]
  rw [hstep]
  cases rdSecondPass (out.take i) <;>
    cases rdSecondPass (out.drop (i + 1)) <;>
      simp [List.append_assoc, Bind.bind, Option.bind]

/-- Witness for C5's theorem at a concrete one-media stylesheet. -/
theorem media_single_occurrence_witness :
    [some (RNode.node (CNode.atRule "media".toList " x".toList
        (some ".a\x7bcolor:red\x7d".toList)))].get? 0 =
      some (some (RNode.node (CNode.atRule "media".toList " x".toList
        (some ".a\x7bcolor:red\x7d".toList)))) ∧
    rdSecondPass [some (RNode.node (CNode.atRule "media".toList " x".toList
        (some ".a\x7bcolor:red\x7d".toList)))] =
      (rdSecondPass ([some (RNode.node (CNode.atRule "media".toList
          " x".toList (some ".a\x7bcolor:red\x7d".toList)))].take 0)).bind
        (fun a =>
          (rdSecondPass ([some (RNode.node (CNode.atRule "media".toList
              " x".toList
              (some ".a\x7bcolor:red\x7d".toList)))].drop (0 + 1))).map
            (fun b =>
              a ++ ("@media ".toList ++
                getSelectorText " x".toList ++ " \x7b\n".toList ++
                (tokensOf (".a\x7bcolor:red\x7d".toList.length + 1)
                  ".a\x7bcolor:red\x7d".toList).flatMap rdRawMediaItem ++
                "\x7d\n\n".toList) ++ b)) :=
  media_single_occurrence_drops_rules.1 "@media x\x7b.a\x7bcolor:red\x7d\x7d"
    0 "media".toList " x".toList ".a\x7bcolor:red\x7d".toList
    [some (RNode.node (CNode.atRule "media".toList " x".toList
      (some ".a\x7bcolor:red\x7d".toList)))]
    (by rfl) (by rfl) (by rfl) (by rfl)

/-- Witness for C7's theorem at the spec's `spin` example. -/
theorem animation_extraction_witness :
    extractAnimations
        "@keyframes spin\x7b0%\x7bopacity:0\x7d100%\x7bopacity:1\x7d\x7d.x\x7banimation: spin 2s\x7d" =
      Except.ok [("spin",
        (⟨[("0%", [("opacity", "0")]), ("100%", [("opacity", "1")])],
          [".x"]⟩ : AnimEntry))] ∧
    [("spin",
      (⟨[("0%", [("opacity", "0")]), ("100%", [("opacity", "1")])],
        [".x"]⟩ : AnimEntry))].map (fun p => p.1) =
      dedupKeepFirst [] (kfNamesOf (parseStylesheet
        "@keyframes spin\x7b0%\x7bopacity:0\x7d100%\x7bopacity:1\x7d\x7d.x\x7banimation: spin 2s\x7d")) :=
  ⟨by rfl,
    (animation_extraction.2
      "@keyframes spin\x7b0%\x7bopacity:0\x7d100%\x7bopacity:1\x7d\x7d.x\x7banimation: spin 2s\x7d"
      [("spin",
        (⟨[("0%", [("opacity", "0")]), ("100%", [("opacity", "1")])],
          [".x"]⟩ : AnimEntry))] (by rfl)).1⟩

/-- C9 counterexample: `minify_css(".a{color:#112233}")` does not equal
`".a{color:#123}"` — the minifier emits a trailing semicolon after every
declaration. -/
theorem c9_counterexample :
    minifyCss ".a\x7bcolor:#112233\x7d" ≠ some ".a\x7bcolor:#123\x7d" := by
  decide

/-- C9 (amended): minify shortens a 6-digit hex colour value to 3-digit
form exactly when the three nibble pairs each match; every declaration
is emitted with a trailing semicolon, so the two example outputs are
`".a{color:#123;}"` and `".a{color:#112234;}"`. -/
theorem minify_hex_shortening :
    minifyCss ".a\x7bcolor:#112233\x7d" = some ".a\x7bcolor:#123;\x7d" ∧
    minifyCss ".a\x7bcolor:#112234\x7d" = some ".a\x7bcolor:#112234;\x7d" ∧
    ∀ a b c d e f : Char,
      (hexShorten ['#', a, b, c, d, e, f] = ['#', a, c, e] ↔
        (a = b ∧ c = d ∧ e = f)) := by
  refine ⟨by decide, by decide, ?_⟩
  intro a b c d e f
  show (if a = b ∧ c = d ∧ e = f then _ else _) = _ ↔ _
  split
  · simp_all
  · simp_all

/-- C3 counterexample: a vendor-prefixed keyframes at-rule is not
recursed into; its block is dropped and it is re-emitted in statement
form. -/
theorem c3_counterexample :
    minifyCss "@-webkit-keyframes spin\x7b0%\x7bopacity:0\x7d\x7d" =
      some "@-webkit-keyframes spin;" := by
  decide

/-- C3 (amended): the recurse set of `minify_css` is exactly
`media` and `keyframes`; an at-rule with any other keyword — including
the vendor-prefixed keyframes spellings — is re-emitted as
`@keyword prelude;` whether or not it carries a block, and a
`media`/`keyframes` at-rule recurses into its block (crashing when the
block is absent). -/
theorem minify_recurse_set :
    (∀ lo, minifyRecurses lo = true ↔
      (lo = "media".toList ∨ lo = "keyframes".toList)) ∧
    (minifyRecurses "-webkit-keyframes".toList = false ∧
      minifyRecurses "-moz-keyframes".toList = false ∧
      minifyRecurses "-ms-keyframes".toList = false ∧
      minifyRecurses "-o-keyframes".toList = false) ∧
    ∀ fuel kw pre block rest,
      minifyGo (fuel + 1) (CNode.atRule kw pre block :: rest) =
        if minifyRecurses (lowerChars kw) then
          match block with
          | none => none
          | some raw =>
            (minifyGo fuel (parseStylesheetChars (closeBlocks raw))).bind
              fun inner =>
                (minifyGo fuel rest).map fun tail =>
                  '@' :: lowerChars kw ++ ' ' :: pyTrim (closeBlocks pre) ++
                    '{' :: inner ++ ['}'] ++ tail
        else
          (minifyGo fuel rest).map fun tail =>
            '@' :: lowerChars kw ++ ' ' :: pyTrim (closeBlocks pre) ++
              [';'] ++ tail := by
  refine ⟨?_, by decide, ?_⟩
  · intro lo
    simp [minifyRecurses]
  · intro fuel kw pre block rest
    show (if minifyRecurses (lowerChars kw) then _ else _) = _
    split
    · cases block with
      | none => rfl
      | some raw =>
        rcases hmg : minifyGo fuel (parseStylesheetChars (closeBlocks raw)) with
          _ | inner <;> simp [hmg]
    · rfl

/-- C2 counterexample: on input with unbalanced braces, `extract_fonts`
and `extract_unused_selectors` return results instead of raising — they
perform no brace pre-check. -/
theorem c2_counterexample :
    unbalancedBraces ".a\x7bfont-family:Arial".toList = true ∧
    extractFonts ".a\x7bfont-family:Arial" =
      [(".a", [(⟨"font-family", "Arial"⟩ : FontDecl)])] ∧
    extractUnusedSelectors ".a\x7bcolor:red" "" = [".a"] := by
  refine ⟨by decide, by decide, by decide⟩

/-- C2 (amended): on every input whose `{` and `}` counts differ, the
extractors that perform the brace pre-check — `extract_colors`,
`extract_media_queries`, `extract_animations` and `analyze_stylesheet` —
raise the unbalanced-braces error; `extract_fonts` and
`extract_unused_selectors` perform no such check and return a result. -/
theorem extractor_brace_check (css : String)
    (h : unbalancedBraces css.toList = true) :
    extractColors css = Except.error "CSS syntax error: Unbalanced braces" ∧
    extractMediaQueries css =
      Except.error "CSS syntax error: Unbalanced braces" ∧
    extractAnimations css = Except.error "CSS syntax error: Unbalanced braces" ∧
    analyzeStylesheet css =
      Except.error "CSS syntax error: Unbalanced braces" := by
  have h' : unbalancedBraces css.data = true := h
  refine ⟨?_, ?_, ?_, ?_⟩ <;>
    simp [extractColors, extractMediaQueries, extractAnimations,
      analyzeStylesheet, h']

/-- Witness for C2's amended theorem at the concrete input `"x{"`. -/
theorem extractor_brace_check_witness :
    unbalancedBraces "x\x7b".toList = true ∧
    extractColors "x\x7b" = Except.error "CSS syntax error: Unbalanced braces" :=
  ⟨by decide, (extractor_brace_check "x\x7b" (by decide)).1⟩

/-- C10 (confirmed): `extract_colors` recurses into the block of every
at-rule with non-`None` content — the keyword and prelude are not
inspected, so `@keyframes` blocks are processed too, keyed by the
keyframe step selector; an at-rule without a block is skipped. -/
theorem extract_colors_recurses :
    extractColors "@keyframes spin\x7b0%\x7bcolor:red\x7d\x7d" =
      Except.ok [("0%", ["color: red"])] ∧
    (∀ fuel kw kw' pre pre' raw rest acc,
      colorsGo (fuel + 1) (CNode.atRule kw pre (some raw) :: rest) acc =
        colorsGo (fuel + 1) (CNode.atRule kw' pre' (some raw) :: rest) acc) ∧
    (∀ fuel kw pre rest acc,
      colorsGo (fuel + 1) (CNode.atRule kw pre none :: rest) acc =
        colorsGo fuel rest acc) := by
  refine ⟨by rfl, ?_, ?_⟩
  · intro fuel kw kw' pre pre' raw rest acc
    rfl
  · intro fuel kw pre rest acc
    rfl

/-- C6 (confirmed): for every declaration whose name is the target
property, `add_prefix_to_property` inserts immediately before it one new
declaration per requested prefix in order, named `{prefix}{property}`,
sharing the original's value tokens and `important` flag; on the spec's
example the declaration order is `-webkit-transform`, `-moz-transform`,
`transform`, all with the identical value. -/
theorem vendor_prefix_insertion :
    addPrefixToProperty ".a\x7btransform: rotate(5deg)\x7d" "transform"
        ["-webkit-", "-moz-"] =
      ".a \x7b\n    -webkit-transform: rotate(5deg);\n    -moz-transform: rotate(5deg);\n    transform: rotate(5deg);\n\x7d" ∧
    ∀ p prefs items,
      processDeclarations p prefs items = items.flatMap (fun it =>
        match it with
        | DItem.decl nm v i =>
          if nm = p then
            (prefs.flatMap fun pr =>
              [DItem.decl (pr ++ p) v i, DItem.wsp "\n    ".toList]) ++
              [DItem.decl nm v i]
          else [DItem.decl nm v i]
        | other => [other]) := by
  refine ⟨by rfl, ?_⟩
  intro p prefs items
  induction items with
  | nil => rfl
  | cons it rest ih =>
    cases it <;> simp only [processDeclarations, ih, List.flatMap_cons]

/-- C8 (code bug): `minify_css` is not idempotent.  The stylesheet
`a\x7b\x7bb:c\x7dd:e\x7d` is syntactically valid by every check the
repository performs (brace counts balanced, the parse reports no
structural error), yet one application yields `a\x7bb:c\x7dd:e;\x7d` —
`strip` with the brace set removes the leading `\x7b` of the serialized
content while its matching `\x7d` stays inside the declaration value —
and a second application parses that stray `\x7d` as the end of the
rule's block, yielding the different string `a\x7bb:c;\x7d`. -/
theorem minify_not_idempotent :
    unbalancedBraces "a\x7b\x7bb:c\x7dd:e\x7d".toList = false ∧
    hasParseError (parseStylesheet "a\x7b\x7bb:c\x7dd:e\x7d") = false ∧
    minifyCss "a\x7b\x7bb:c\x7dd:e\x7d" = some "a\x7bb:c\x7dd:e;\x7d" ∧
    minifyCss "a\x7bb:c\x7dd:e;\x7d" = some "a\x7bb:c;\x7d" ∧
    some "a\x7bb:c;\x7d" ≠ some "a\x7bb:c\x7dd:e;\x7d" := by
  exact ⟨rfl, rfl, rfl, rfl, by decide⟩

end CssTools
